import Mathlib

/-!
# Qt Creator: `SymbolIndexing` shutdown and `BuildManager` queue bookkeeping

A shallow embedding of two pieces of the repository:

* `src/tools/clangrefactoringbackend/source/symbolindexing.h`: the facade
  `ClangBackEnd::SymbolIndexing` (constructor, destructor, `syncTasks`, member
  declaration order);
* `src/plugins/projectexplorer/buildmanager.cpp`: the build queue of
  `ProjectExplorer::BuildManager`.

Definitions come first, theorems afterwards.
-/

set_option autoImplicit false

/-! ## Part 1: definitions for `ClangBackEnd::SymbolIndexing` -/

namespace ClangBackEnd

/-- Data members of `SymbolIndexing` (symbolindexing.h, lines 113-127). -/
inductive Member where
  | m_filePathCache
  | m_usedMacroAndSourceStorage
  | m_symbolStorage
  | m_sourceWatcher
  | m_fileStatusCache
  | m_collectorManger
  | m_indexerScheduler
  | m_indexerQueue
  | m_indexer
deriving DecidableEq, Repr

/-- The members in the order in which the class declares them (lines 113-127). -/
def memberDeclarations : List Member :=
  [ .m_filePathCache, .m_usedMacroAndSourceStorage, .m_symbolStorage, .m_sourceWatcher,
    .m_fileStatusCache, .m_collectorManger, .m_indexerScheduler, .m_indexerQueue, .m_indexer ]

/-- Whether the member is a reference (`FilePathCachingInterface &m_filePathCache`, line 113):
a reference member owns nothing and nothing is destroyed for it. -/
def Member.isReference : Member → Bool
  | .m_filePathCache => true
  | _ => false

/-- Order in which the sub-objects are destroyed once the destructor body has returned:
the owned members, in reverse order of declaration. -/
def destructionOrder : List Member :=
  (memberDeclarations.filter (fun m => !m.isReference)).reverse

/-- What happens, step by step, while a `SymbolIndexing` is destroyed. -/
inductive LifecycleEvent where
  /-- `m_indexerScheduler.disable()` (line 102). -/
  | schedulerDisabled
  /-- The `while` loop of lines 103-106 has run to its end. -/
  | tasksDrained
  /-- The destructor of the member has run. -/
  | destroyed (m : Member)
deriving DecidableEq, Repr

/-- Events of the destructor body (lines 90-93: it calls `syncTasks()`, lines 100-107). -/
def destructorBody : List LifecycleEvent :=
  [.schedulerDisabled, .tasksDrained]

/-- The whole shutdown of a `SymbolIndexing`: destructor body, then the members. -/
def shutdownSequence : List LifecycleEvent :=
  destructorBody ++ destructionOrder.map .destroyed

/-- Whether the event stops or destroys the member. The destructor body only ever touches
the scheduler; every other member is reached by its own destructor only. -/
def LifecycleEvent.stopsOrDestroys (m : Member) : LifecycleEvent → Bool
  | .schedulerDisabled => decide (m = .m_indexerScheduler)
  | .tasksDrained => decide (m = .m_indexerScheduler)
  | .destroyed d => decide (d = m)

/-- Position in `shutdownSequence` of the first event that stops or destroys `m`. -/
def stoppedAt (m : Member) : Nat :=
  shutdownSequence.findIdx (LifecycleEvent.stopsOrDestroys m)

/-- Position in `shutdownSequence` at which the member is released (destroyed). -/
def releasedAt (m : Member) : Nat :=
  shutdownSequence.findIdx (fun e => decide (e = .destroyed m))

/-- Whether `a` is stopped or destroyed strictly before `b` is released. -/
def stoppedBeforeReleased (a b : Member) : Bool :=
  decide (stoppedAt a < releasedAt b)

/-- The operations of `TaskScheduler` that `SymbolIndexing` calls. `taskscheduler.h` is not
among the sources, so the scheduler is a parameter: `σ` is the state the scheduler can reach
(itself, the processor manager and the queue it was constructed over). `syncTasks` waits on
futures and may therefore never return, which is `none`. -/
structure TaskSchedulerInterface (σ : Type) where
  /-- `m_indexerScheduler.disable()`. -/
  disable : σ → σ
  /-- `m_indexerScheduler.futures().empty()`. -/
  futuresEmpty : σ → Bool
  /-- `m_indexerScheduler.syncTasks()`. -/
  syncTasks : σ → Option σ
  /-- `m_indexerScheduler.freeSlots()` (the returned count is discarded by the caller). -/
  freeSlots : σ → σ

/-- The loop of `SymbolIndexing::syncTasks` (lines 103-106):
`while (!futures().empty()) { syncTasks(); freeSlots(); }`.
`fuel` bounds the number of evaluations of the loop condition; `none` means that the loop
has not returned (fuel exhausted, or a wait that never returns). -/
def SymbolIndexing.syncTasksLoop {σ : Type} (sched : TaskSchedulerInterface σ) :
    Nat → σ → Option σ
  | 0, _ => none
  | fuel + 1, s =>
    if sched.futuresEmpty s then some s
    else
      match sched.syncTasks s with
      | none => none
      | some waited => SymbolIndexing.syncTasksLoop sched fuel (sched.freeSlots waited)

/-- `SymbolIndexing::syncTasks` (lines 100-107): disable once, then the loop. -/
def SymbolIndexing.syncTasks {σ : Type} (sched : TaskSchedulerInterface σ) (fuel : Nat)
    (s : σ) : Option σ :=
  SymbolIndexing.syncTasksLoop sched fuel (sched.disable s)

/-- `SymbolIndexing::~SymbolIndexing` (lines 90-93): the body calls `syncTasks()`; when it
returns, the members are destroyed in `destructionOrder`. The result is the state in which
the first member destructor starts, together with that order. -/
def SymbolIndexing.destructor {σ : Type} (sched : TaskSchedulerInterface σ) (fuel : Nat)
    (s : σ) : Option (σ × List Member) :=
  (SymbolIndexing.syncTasks sched fuel s).map (fun drained => (drained, destructionOrder))

/-- Modelled from the spec: `IndexingTask` of section 3 (symbolindexertask.h is missing):
a file path and the identifier of the owning project part. Compiler arguments and the
continuation play no part in scheduling and are left out. -/
structure IndexingTask where
  filePath : Nat
  projectPartId : Nat
deriving DecidableEq, Repr

/-- Modelled from the spec: an in-flight task, that is a task bound to a processor
(sections 3 and 4.1; taskscheduler.h is missing). `remaining` is the work the collector
call still has to do: `some 0` is completed but not yet harvested, `some (n + 1)` is still
running, and `none` is a call that never completes. -/
structure BoundTask where
  task : IndexingTask
  remaining : Option Nat
deriving DecidableEq, Repr

/-- Modelled from the spec: `Processor` of section 3 (processormanager.h is missing): a
collector handle with the task currently bound to it; it is idle when there is none. -/
structure Processor where
  bound : Option BoundTask
deriving DecidableEq, Repr

/-- Modelled from the spec: the state of `TaskScheduler` (section 4.1; taskscheduler.h is
missing): the processor manager and queue it was constructed over, the concurrency limit,
the disabled flag, and the tasks whose completion has been harvested so far. -/
structure TaskScheduler where
  processorManager : Member
  queue : Member
  hardwareConcurrency : Nat
  isDisabled : Bool
  harvested : List IndexingTask
deriving DecidableEq, Repr

/-- Modelled from the spec: the constructor of `TaskScheduler` (taskscheduler.h is missing),
called with a processor manager, a queue and the concurrency limit. -/
def TaskScheduler.construct (processorManager queue : Member) (hardwareConcurrency : Nat) :
    TaskScheduler :=
  { processorManager := processorManager
    queue := queue
    hardwareConcurrency := hardwareConcurrency
    isDisabled := false
    harvested := [] }

/-- The part of a `SymbolIndexing` that scheduling touches: the processor pool
`m_collectorManger` (line 118), the scheduler `m_indexerScheduler` (line 119) and the
pending tasks of `m_indexerQueue` (line 120). -/
structure SymbolIndexing where
  m_collectorManger : List Processor
  m_indexerScheduler : TaskScheduler
  m_indexerQueue : List IndexingTask
deriving DecidableEq, Repr

/-- The constructor of `SymbolIndexing` (lines 79-88). `hardware_concurrency` is the value
that `std::thread::hardware_concurrency()` returns when the member initialiser of line 86,
`m_indexerScheduler(m_collectorManger, m_indexerQueue, std::thread::hardware_concurrency())`,
runs. The pool starts without processors and the queue without tasks. -/
def SymbolIndexing.construct (hardware_concurrency : Nat) : SymbolIndexing :=
  { m_collectorManger := []
    m_indexerScheduler :=
      TaskScheduler.construct .m_collectorManger .m_indexerQueue hardware_concurrency
    m_indexerQueue := [] }

/-- Modelled from the spec: `TaskScheduler::futures()` (taskscheduler.h is missing): the
in-flight tasks, which section 8 identifies with the tasks bound to a processor. -/
def TaskScheduler.futures (x : SymbolIndexing) : List BoundTask :=
  x.m_collectorManger.filterMap (fun pr => pr.bound)

/-- Modelled from the spec: `TaskScheduler::disable()` (taskscheduler.h is missing): "stops
accepting new tasks"; "tasks already in flight run to completion", "but tasks still only
queued are discarded". -/
def TaskScheduler.disable (x : SymbolIndexing) : SymbolIndexing :=
  { x with
    m_indexerScheduler := { x.m_indexerScheduler with isDisabled := true }
    m_indexerQueue := [] }

/-- Modelled from the spec: whether the collector call of the bound task has completed
("completed-but-unharvested", section 4.1; taskscheduler.h is missing). -/
def BoundTask.completed (b : BoundTask) : Bool :=
  b.remaining == some 0

/-- Modelled from the spec: `ProcessorPool` release applied to one processor when its task
has completed (section 4.2; processormanager.h is missing): it "returns a processor to idle
state". A processor whose task is still running is left alone. -/
def Processor.releaseIfCompleted (pr : Processor) : Processor :=
  match pr.bound with
  | some b => if b.completed then { bound := none } else pr
  | none => pr

/-- Modelled from the spec: `TaskScheduler::freeSlots()` (taskscheduler.h is missing):
"reclaims completed-but-unharvested slots without blocking". The completed tasks are
recorded as harvested and their processors go back to idle. -/
def TaskScheduler.freeSlots (x : SymbolIndexing) : SymbolIndexing :=
  { x with
    m_collectorManger := x.m_collectorManger.map Processor.releaseIfCompleted
    m_indexerScheduler :=
      { x.m_indexerScheduler with
        harvested := x.m_indexerScheduler.harvested ++
          ((TaskScheduler.futures x).filter BoundTask.completed).map (fun b => b.task) } }

/-- Modelled from the spec: a blocking wait on one processor (taskscheduler.h is missing):
the bound task, which is known to complete, has run to its end. -/
def Processor.runToCompletion (pr : Processor) : Processor :=
  match pr.bound with
  | some b => { bound := some { b with remaining := some 0 } }
  | none => pr

/-- Modelled from the spec: `TaskScheduler::syncTasks()` (taskscheduler.h is missing):
"blocks the calling context until all currently in-flight tasks complete, then returns
their results to storage and frees their processors back to idle". When some in-flight
task never completes the wait never returns (`none`). -/
def TaskScheduler.syncTasks (x : SymbolIndexing) : Option SymbolIndexing :=
  if (TaskScheduler.futures x).all (fun b => b.remaining.isSome) then
    some (TaskScheduler.freeSlots
      { x with m_collectorManger := x.m_collectorManger.map Processor.runToCompletion })
  else
    none

/-- Modelled from the spec: the scheduler of section 4.1 as an instance of the interface
that `SymbolIndexing` uses (taskscheduler.h is missing). -/
def TaskScheduler.specified : TaskSchedulerInterface SymbolIndexing :=
  { disable := TaskScheduler.disable
    futuresEmpty := fun x => (TaskScheduler.futures x).isEmpty
    syncTasks := TaskScheduler.syncTasks
    freeSlots := TaskScheduler.freeSlots }

/-- A small pool used to exercise the definitions: one processor running a task with three
units of work left, one idle processor, one processor whose task has completed. -/
def samplePool : List Processor :=
  [ { bound := some { task := { filePath := 1, projectPartId := 7 }, remaining := some 3 } },
    { bound := none },
    { bound := some { task := { filePath := 2, projectPartId := 7 }, remaining := some 0 } } ]

/-- A `SymbolIndexing` with `samplePool` in flight and one task still queued. -/
def sampleIndexing : SymbolIndexing :=
  { SymbolIndexing.construct 4 with
    m_collectorManger := samplePool
    m_indexerQueue := [{ filePath := 3, projectPartId := 7 }] }

/-- A call that `SymbolIndexing` makes on its scheduler and that changes the scheduler
(lines 102, 104, 105). Reading `futures()` changes nothing and is not a call here. -/
inductive SchedulerCall where
  | disable
  | syncTasks
  | freeSlots
deriving DecidableEq, Repr

/-- The same scheduler, keeping a record of the calls made on it: the state is paired with
the calls made so far, oldest first, and each operation does what it did and adds itself
to the record. Running `SymbolIndexing::syncTasks` or the destructor over it yields, next
to the final state, the calls they have made, in order. A `syncTasks` that never returns
leaves no record. -/
def TaskSchedulerInterface.traced {σ : Type} (sched : TaskSchedulerInterface σ) :
    TaskSchedulerInterface (σ × List SchedulerCall) :=
  { disable := fun st => (sched.disable st.1, st.2 ++ [SchedulerCall.disable])
    futuresEmpty := fun st => sched.futuresEmpty st.1
    syncTasks := fun st =>
      match sched.syncTasks st.1 with
      | none => none
      | some waited => some (waited, st.2 ++ [SchedulerCall.syncTasks])
    freeSlots := fun st => (sched.freeSlots st.1, st.2 ++ [SchedulerCall.freeSlots]) }

/-- The state `sampleIndexing` is in when `syncTasks` returns: every processor idle, both
in-flight tasks harvested, the queued task discarded. -/
def sampleDrained : SymbolIndexing :=
  { m_collectorManger := [{ bound := none }, { bound := none }, { bound := none }]
    m_indexerScheduler :=
      { processorManager := .m_collectorManger
        queue := .m_indexerQueue
        hardwareConcurrency := 4
        isDisabled := true
        harvested := [{ filePath := 1, projectPartId := 7 }, { filePath := 2, projectPartId := 7 }] }
    m_indexerQueue := [] }

end ClangBackEnd

/-! ## Part 2: definitions for `ProjectExplorer::BuildManager`

The embedding keeps the queue bookkeeping of `buildmanager.cpp`: the build queue, the
running and cancelling flags, the current step, the per-project counts, the progress
counters and whether the progress future interface is allocated. The output and task
windows, the signal connections of the build steps and the progress texts are user
interface and are left out. Signals are recorded in `effects` in the order of emission;
slots connected to them are not run. The `int` counters are unbounded integers: each is
bounded by the number of steps handed to the manager, so wrap-around plays no part.
-/

namespace ProjectExplorer

/-- `Project *`: projects are told apart by their address. -/
abbrev Project := Nat

/-- `BuildStep *`: `id` is the address of the step and `project` is
`bs->buildConfiguration()->target()->project()`. -/
structure BuildStep where
  id : Nat
  project : Project
deriving DecidableEq, Repr

/-- The two ways in which a member function can fail to reach its end. -/
inductive Fault where
  /-- A null `m_currentBuildStep` or `m_progressFutureInterface` is dereferenced. -/
  | nullDereference
  /-- `Q_ASSERT(false && ...)` of `decrementActiveBuildSteps` (line 528) is reached. -/
  | assertionFailed
deriving DecidableEq, Repr

/-- Calls and signals that leave the manager, recorded in order. -/
inductive Effect where
  /-- `bs->init()` (line 424). -/
  | initCalled (bs : BuildStep)
  /-- `emit buildStateChanged(pro)` (lines 514, 517, 531). -/
  | buildStateChanged (pro : Project)
  /-- `emit buildQueueFinished(success)` (lines 256, 283, 409). -/
  | buildQueueFinished (success : Bool)
  /-- `m_watcher.setFuture(QtConcurrent::run(&BuildStep::run, bs))` (line 399). -/
  | runStarted (bs : BuildStep)
  /-- `m_watcher.cancel(); m_watcher.waitForFinished()` (lines 191-192). -/
  | watcherCanceled
deriving DecidableEq, Repr

/-- `BuildManagerPrivate` (lines 75-100). `m_activeBuildSteps` is the `QHash<Project *, int>`
as an association list with one entry per key; `m_progressFutureInterface` tells whether the
pointer is non-null. -/
structure BuildManagerPrivate where
  m_buildQueue : List BuildStep
  m_running : Bool
  m_currentBuildStep : Option BuildStep
  m_activeBuildSteps : List (Project × Int)
  m_previousBuildStepProject : Option Project
  m_canceling : Bool
  m_progress : Int
  m_maxProgress : Int
  m_progressFutureInterface : Bool
  effects : List Effect
deriving DecidableEq, Repr

/-- The constructor `BuildManagerPrivate::BuildManagerPrivate` (lines 102-109). It
initialises `m_running`, `m_previousBuildStepProject`, `m_canceling`, `m_maxProgress` and
`m_progressFutureInterface`; `m_currentBuildStep` and `m_progress` are not initialised, so
their first values are arguments here. -/
def BuildManagerPrivate.initial (m_currentBuildStep : Option BuildStep) (m_progress : Int) :
    BuildManagerPrivate :=
  { m_buildQueue := []
    m_running := false
    m_currentBuildStep := m_currentBuildStep
    m_activeBuildSteps := []
    m_previousBuildStepProject := none
    m_canceling := false
    m_progress := m_progress
    m_maxProgress := 0
    m_progressFutureInterface := false
    effects := [] }

/-- `QHash::find`: the value stored for the key, if any. -/
def findCount (hash : List (Project × Int)) (pro : Project) : Option Int :=
  hash.lookup pro

/-- Writing through a `QHash` iterator, or `QHash::insert` when the key is absent. -/
def setCount (pro : Project) (value : Int) : List (Project × Int) → List (Project × Int)
  | [] => [(pro, value)]
  | (key, old) :: rest =>
    if key = pro then (pro, value) :: rest else (key, old) :: setCount pro value rest

/-- Appends one effect to the record. -/
def BuildManagerPrivate.emit (d : BuildManagerPrivate) (e : Effect) : BuildManagerPrivate :=
  { d with effects := d.effects ++ [e] }

/-- `BuildManager::incrementActiveBuildSteps` (lines 508-521). -/
def incrementActiveBuildSteps (pro : Project) (d : BuildManagerPrivate) : BuildManagerPrivate :=
  match findCount d.m_activeBuildSteps pro with
  | none =>
    { d with m_activeBuildSteps := setCount pro 1 d.m_activeBuildSteps }.emit
      (.buildStateChanged pro)
  | some count =>
    if count = 0 then
      { d with m_activeBuildSteps := setCount pro (count + 1) d.m_activeBuildSteps }.emit
        (.buildStateChanged pro)
    else
      { d with m_activeBuildSteps := setCount pro (count + 1) d.m_activeBuildSteps }

/-- `BuildManager::decrementActiveBuildSteps` (lines 523-535). An absent entry reaches
`Q_ASSERT(false && ...)`, which is the fault `assertionFailed`: the function does not go
on. An entry with any value other than 1 is decremented without a signal, a zero
included. -/
def decrementActiveBuildSteps (pro : Project) (d : BuildManagerPrivate) :
    Except Fault BuildManagerPrivate :=
  match findCount d.m_activeBuildSteps pro with
  | none => .error .assertionFailed
  | some count =>
    if count = 1 then
      .ok ({ d with m_activeBuildSteps := setCount pro (count - 1) d.m_activeBuildSteps }.emit
        (.buildStateChanged pro))
    else
      .ok { d with m_activeBuildSteps := setCount pro (count - 1) d.m_activeBuildSteps }

/-- `BuildManager::isBuilding() const` (lines 181-185). -/
def isBuilding (d : BuildManagerPrivate) : Bool :=
  !d.m_buildQueue.isEmpty || d.m_running

/-- `BuildManager::isBuilding(Project *pro)` (lines 493-501). -/
def isBuildingProject (pro : Project) (d : BuildManagerPrivate) : Bool :=
  match findCount d.m_activeBuildSteps pro with
  | none => false
  | some count => if count = 0 then false else true

/-- The `foreach` loop of `BuildManager::clearBuildQueue` (lines 236-242). -/
def clearBuildQueueLoop :
    List BuildStep → BuildManagerPrivate → Except Fault BuildManagerPrivate
  | [], d => .ok d
  | bs :: rest, d =>
    match decrementActiveBuildSteps bs.project d with
    | .error fault => .error fault
    | .ok d1 => clearBuildQueueLoop rest d1

/-- `BuildManager::clearBuildQueue` (lines 234-257). -/
def clearBuildQueue (d : BuildManagerPrivate) : Except Fault BuildManagerPrivate :=
  match clearBuildQueueLoop d.m_buildQueue d with
  | .error fault => .error fault
  | .ok d1 =>
    if d1.m_progressFutureInterface then
      .ok ({ d1 with
              m_buildQueue := []
              m_running := false
              m_previousBuildStepProject := none
              m_currentBuildStep := none
              m_progressFutureInterface := false
              m_maxProgress := 0 }.emit (.buildQueueFinished false))
    else
      .error .nullDereference

/-- `BuildManager::cancel` (lines 187-210). -/
def cancel (d : BuildManagerPrivate) : Except Fault BuildManagerPrivate :=
  if d.m_running then
    let d1 := { d with m_canceling := true }.emit .watcherCanceled
    match d1.m_currentBuildStep with
    | none => .error .nullDereference
    | some current =>
      match decrementActiveBuildSteps current.project d1 with
      | .error fault => .error fault
      | .ok d2 =>
        if d2.m_progressFutureInterface then clearBuildQueue d2 else .error .nullDereference
  else
    .ok d

/-- `BuildManager::aboutToRemoveProject` (lines 169-179). -/
def aboutToRemoveProject (p : Project) (d : BuildManagerPrivate) :
    Except Fault BuildManagerPrivate :=
  match findCount d.m_activeBuildSteps p with
  | none => .ok d
  | some count => if count > 0 then cancel d else .ok d

/-- `BuildManager::nextStep` (lines 387-411). -/
def nextStep (d : BuildManagerPrivate) : Except Fault BuildManagerPrivate :=
  match d.m_buildQueue with
  | bs :: rest =>
    let d1 := { d with m_currentBuildStep := some bs, m_buildQueue := rest }
    let d2 :=
      if some bs.project ≠ d1.m_previousBuildStepProject then
        { d1 with m_previousBuildStepProject := some bs.project }
      else d1
    .ok (d2.emit (.runStarted bs))
  | [] =>
    if d.m_progressFutureInterface then
      .ok ({ d with
              m_running := false
              m_previousBuildStepProject := none
              m_currentBuildStep := none
              m_progressFutureInterface := false
              m_maxProgress := 0 }.emit (.buildQueueFinished true))
    else
      .error .nullDereference

/-- `BuildManager::startBuildQueue` (lines 280-313). -/
def startBuildQueue (d : BuildManagerPrivate) : Except Fault BuildManagerPrivate :=
  if d.m_buildQueue.isEmpty then
    .ok (d.emit (.buildQueueFinished true))
  else if !d.m_running then
    nextStep { d with
                m_progressFutureInterface := true
                m_progress := 0
                m_running := true
                m_canceling := false }
  else if d.m_progressFutureInterface then
    .ok d
  else
    .error .nullDereference

/-- `BuildManager::nextBuildQueue` (lines 336-365), the slot run when the watched step has
finished; `result` is `m_watcher.result()`, what `BuildStep::run` returned. -/
def nextBuildQueue (result : Bool) (d : BuildManagerPrivate) :
    Except Fault BuildManagerPrivate :=
  if d.m_canceling then
    .ok d
  else if d.m_progressFutureInterface then
    match d.m_currentBuildStep with
    | none => .error .nullDereference
    | some current =>
      match decrementActiveBuildSteps current.project
          { d with m_progress := d.m_progress + 1 } with
      | .error fault => .error fault
      | .ok d1 => if result then nextStep d1 else clearBuildQueue d1
  else
    .error .nullDereference

/-- The first loop of `BuildManager::buildQueueAppend` (lines 418-427): the steps are
initialised in order until one fails. `init bs` is what `bs->init()` returns (a step that
occurs twice in the list answers the same both times). The result is the final value of the
local variable `init`. -/
def buildQueueAppendInit (init : BuildStep → Bool) :
    List BuildStep → BuildManagerPrivate → Bool × BuildManagerPrivate
  | [], d => (true, d)
  | bs :: rest, d =>
    if init bs then buildQueueAppendInit init rest (d.emit (.initCalled bs))
    else (false, d.emit (.initCalled bs))

/-- The last loop of `BuildManager::buildQueueAppend` (lines 450-454). -/
def buildQueueAppendLoop : List BuildStep → BuildManagerPrivate → BuildManagerPrivate
  | [], d => d
  | bs :: rest, d =>
    buildQueueAppendLoop rest
      (incrementActiveBuildSteps bs.project
        { d with m_maxProgress := d.m_maxProgress + 1, m_buildQueue := d.m_buildQueue ++ [bs] })

/-- `BuildManager::buildQueueAppend` (lines 413-456). -/
def buildQueueAppend (init : BuildStep → Bool) (steps : List BuildStep)
    (d : BuildManagerPrivate) : Bool × BuildManagerPrivate :=
  match buildQueueAppendInit init steps d with
  | (false, d1) => (false, d1)
  | (true, d1) => (true, buildQueueAppendLoop steps d1)

/-- `BuildManager::buildLists` (lines 463-479); a `BuildStepList` is the list of its steps. -/
def buildLists (init : BuildStep → Bool) (bsls : List (List BuildStep))
    (d : BuildManagerPrivate) : Except Fault (Bool × BuildManagerPrivate) :=
  match buildQueueAppend init bsls.flatten d with
  | (false, d1) => .ok (false, d1)
  | (true, d1) =>
    match startBuildQueue d1 with
    | .error fault => .error fault
    | .ok d2 => .ok (true, d2)

/-- `BuildManager::appendStep` (lines 481-491). -/
def appendStep (init : BuildStep → Bool) (step : BuildStep) (d : BuildManagerPrivate) :
    Except Fault BuildManagerPrivate :=
  match buildQueueAppend init [step] d with
  | (false, d1) => .ok d1
  | (true, d1) => startBuildQueue d1

/-- States of a `BuildManager` reachable from a freshly constructed one through
`buildLists`, `appendStep`, completion of the running step (`nextBuildQueue`) and `cancel`,
each of which has to reach its end. -/
inductive Reachable : BuildManagerPrivate → Prop where
  | initial (m_currentBuildStep : Option BuildStep) (m_progress : Int) :
      Reachable (BuildManagerPrivate.initial m_currentBuildStep m_progress)
  | buildLists {d d' : BuildManagerPrivate} (init : BuildStep → Bool)
      (bsls : List (List BuildStep)) (success : Bool) :
      Reachable d → buildLists init bsls d = .ok (success, d') → Reachable d'
  | appendStep {d d' : BuildManagerPrivate} (init : BuildStep → Bool) (step : BuildStep) :
      Reachable d → appendStep init step d = .ok d' → Reachable d'
  | nextBuildQueue {d d' : BuildManagerPrivate} (result : Bool) :
      Reachable d → nextBuildQueue result d = .ok d' → Reachable d'
  | cancel {d d' : BuildManagerPrivate} :
      Reachable d → cancel d = .ok d' → Reachable d'

/-- The count `m_activeBuildSteps[pro]`, taken as 0 when the project has no entry. -/
def activeBuildSteps (pro : Project) (d : BuildManagerPrivate) : Int :=
  (findCount d.m_activeBuildSteps pro).getD 0

/-- Number of steps of the project in a list of steps. -/
def stepsOf (pro : Project) (steps : List BuildStep) : Nat :=
  steps.countP (fun bs => bs.project = pro)

/-- One when a step of the project is the currently running step, zero otherwise. -/
def runningStepOf (pro : Project) (d : BuildManagerPrivate) : Nat :=
  match d.m_currentBuildStep with
  | some current => if d.m_running = true ∧ current.project = pro then 1 else 0
  | none => 0

/-- The steps on which `init()` has been called, in order. -/
def initCalls (d : BuildManagerPrivate) : List BuildStep :=
  d.effects.filterMap (fun e => match e with | .initCalled bs => some bs | _ => none)

/-- The steps whose `run` has been started, in order. -/
def runsStarted (d : BuildManagerPrivate) : List BuildStep :=
  d.effects.filterMap (fun e => match e with | .runStarted bs => some bs | _ => none)

/-- The arguments of the emitted `buildQueueFinished` signals, in order. -/
def finishedSignals (d : BuildManagerPrivate) : List Bool :=
  d.effects.filterMap (fun e => match e with | .buildQueueFinished ok => some ok | _ => none)

/-- The control part of the state: every field except the counts and the effects. -/
def BuildManagerPrivate.control (d : BuildManagerPrivate) :
    List BuildStep × Bool × Option BuildStep × Option Project × Bool × Int × Int × Bool :=
  (d.m_buildQueue, d.m_running, d.m_currentBuildStep, d.m_previousBuildStepProject,
    d.m_canceling, d.m_progress, d.m_maxProgress, d.m_progressFutureInterface)

/-- The counting part of the bookkeeping invariant: every count is the number of queued
steps of the project plus one for a running step of the project; while running there is a
current step and no cancellation is under way; the progress future interface exists exactly
while running. -/
def Counted (d : BuildManagerPrivate) : Prop :=
  (∀ pro, activeBuildSteps pro d = (stepsOf pro d.m_buildQueue : Int) + runningStepOf pro d) ∧
    (d.m_running = true → d.m_currentBuildStep ≠ none ∧ d.m_canceling = false) ∧
    d.m_progressFutureInterface = d.m_running

/-- The bookkeeping invariant of the manager between two calls: the counts are right and
the queue is empty while nothing is running. -/
def Inv (d : BuildManagerPrivate) : Prop :=
  Counted d ∧ (d.m_running = false → d.m_buildQueue = [])

/-- Three steps used to exercise the definitions: two of project 1 and one of project 2. -/
def sampleSteps : List BuildStep :=
  [{ id := 10, project := 1 }, { id := 11, project := 1 }, { id := 20, project := 2 }]

/-- The effects recorded once `sampleSteps` have been handed to a fresh manager and the
first of them has been started. -/
def sampleEffects : List Effect :=
  [ .initCalled { id := 10, project := 1 }, .initCalled { id := 11, project := 1 },
    .initCalled { id := 20, project := 2 }, .buildStateChanged 1, .buildStateChanged 2,
    .runStarted { id := 10, project := 1 } ]

/-- The state after `buildLists` of `sampleSteps` on a fresh manager: step 10 runs, steps 11
and 20 are queued. -/
def sampleBuilding : BuildManagerPrivate :=
  { m_buildQueue := [{ id := 11, project := 1 }, { id := 20, project := 2 }]
    m_running := true
    m_currentBuildStep := some { id := 10, project := 1 }
    m_activeBuildSteps := [(1, 2), (2, 1)]
    m_previousBuildStepProject := some 1
    m_canceling := false
    m_progress := 0
    m_maxProgress := 3
    m_progressFutureInterface := true
    effects := sampleEffects }

/-- The state after step 10 has succeeded in `sampleBuilding`: step 11 runs. -/
def sampleSecondStep : BuildManagerPrivate :=
  { m_buildQueue := [{ id := 20, project := 2 }]
    m_running := true
    m_currentBuildStep := some { id := 11, project := 1 }
    m_activeBuildSteps := [(1, 1), (2, 1)]
    m_previousBuildStepProject := some 1
    m_canceling := false
    m_progress := 1
    m_maxProgress := 3
    m_progressFutureInterface := true
    effects := sampleEffects ++ [.runStarted { id := 11, project := 1 }] }

/-- The state after step 11 has succeeded as well: step 20, the last one, runs. -/
def sampleLastStep : BuildManagerPrivate :=
  { m_buildQueue := []
    m_running := true
    m_currentBuildStep := some { id := 20, project := 2 }
    m_activeBuildSteps := [(1, 0), (2, 1)]
    m_previousBuildStepProject := some 2
    m_canceling := false
    m_progress := 2
    m_maxProgress := 3
    m_progressFutureInterface := true
    effects := sampleEffects ++
      [.runStarted { id := 11, project := 1 }, .buildStateChanged 1,
        .runStarted { id := 20, project := 2 }] }

/-- The state after the last step has succeeded: the build queue has finished. -/
def sampleFinished : BuildManagerPrivate :=
  { m_buildQueue := []
    m_running := false
    m_currentBuildStep := none
    m_activeBuildSteps := [(1, 0), (2, 0)]
    m_previousBuildStepProject := none
    m_canceling := false
    m_progress := 3
    m_maxProgress := 0
    m_progressFutureInterface := false
    effects := sampleEffects ++
      [.runStarted { id := 11, project := 1 }, .buildStateChanged 1,
        .runStarted { id := 20, project := 2 }, .buildStateChanged 2,
        .buildQueueFinished true] }

/-- The state after step 10 has failed in `sampleBuilding`. -/
def sampleFailed : BuildManagerPrivate :=
  { m_buildQueue := []
    m_running := false
    m_currentBuildStep := none
    m_activeBuildSteps := [(1, 0), (2, 0)]
    m_previousBuildStepProject := none
    m_canceling := false
    m_progress := 1
    m_maxProgress := 0
    m_progressFutureInterface := false
    effects := sampleEffects ++
      [.buildStateChanged 1, .buildStateChanged 2, .buildQueueFinished false] }

/-- The state after `cancel` in `sampleBuilding`. -/
def sampleCancelled : BuildManagerPrivate :=
  { m_buildQueue := []
    m_running := false
    m_currentBuildStep := none
    m_activeBuildSteps := [(1, 0), (2, 0)]
    m_previousBuildStepProject := none
    m_canceling := true
    m_progress := 0
    m_maxProgress := 0
    m_progressFutureInterface := false
    effects := sampleEffects ++
      [.watcherCanceled, .buildStateChanged 1, .buildStateChanged 2,
        .buildQueueFinished false] }

/-- One call of `decrementActiveBuildSteps`: the project it is called for and what
`m_activeBuildSteps.find(pro)` yields at that moment (`none` when there is no entry). -/
structure DecrementCall where
  pro : Project
  found : Option Int
deriving DecidableEq, Repr

/-- Whether the call finds an entry whose count is at least 1. -/
def DecrementCall.hasPositiveEntry (c : DecrementCall) : Bool :=
  match c.found with
  | some count => decide (1 ≤ count)
  | none => false

/-- The call `decrementActiveBuildSteps(pro)` made in state `d`. -/
def decrementCall (pro : Project) (d : BuildManagerPrivate) : DecrementCall :=
  { pro := pro, found := findCount d.m_activeBuildSteps pro }

/-- The calls of `decrementActiveBuildSteps` made by the `foreach` loop of `clearBuildQueue`
(line 237), in order: one per queued step, each in the state the previous one has left; a
call that fails is the last one. -/
def clearBuildQueueLoopCalls : List BuildStep → BuildManagerPrivate → List DecrementCall
  | [], _ => []
  | bs :: rest, d =>
    decrementCall bs.project d ::
      match decrementActiveBuildSteps bs.project d with
      | .error _ => []
      | .ok d1 => clearBuildQueueLoopCalls rest d1

/-- The calls of `decrementActiveBuildSteps` made by `clearBuildQueue` (lines 234-257). -/
def clearBuildQueueCalls (d : BuildManagerPrivate) : List DecrementCall :=
  clearBuildQueueLoopCalls d.m_buildQueue d

/-- The calls of `decrementActiveBuildSteps` made by `cancel` (lines 187-210): the one of
line 204 for the current step, then those of `clearBuildQueue` (line 207). -/
def cancelCalls (d : BuildManagerPrivate) : List DecrementCall :=
  if d.m_running then
    let d1 := { d with m_canceling := true }.emit .watcherCanceled
    match d1.m_currentBuildStep with
    | none => []
    | some current =>
      decrementCall current.project d1 ::
        match decrementActiveBuildSteps current.project d1 with
        | .error _ => []
        | .ok d2 => if d2.m_progressFutureInterface then clearBuildQueueCalls d2 else []
  else
    []

/-- The calls of `decrementActiveBuildSteps` made by `nextBuildQueue` (lines 336-365): the
one of line 348 for the finished step, then, when the step has failed, those of
`clearBuildQueue` (line 364); `nextStep` (line 362) makes none. -/
def nextBuildQueueCalls (result : Bool) (d : BuildManagerPrivate) : List DecrementCall :=
  if d.m_canceling then
    []
  else if d.m_progressFutureInterface then
    match d.m_currentBuildStep with
    | none => []
    | some current =>
      decrementCall current.project { d with m_progress := d.m_progress + 1 } ::
        match decrementActiveBuildSteps current.project
            { d with m_progress := d.m_progress + 1 } with
        | .error _ => []
        | .ok d1 => if result then [] else clearBuildQueueCalls d1
  else
    []

/-- The four operations that make up `Reachable`, with their arguments. -/
inductive Operation where
  | buildLists (init : BuildStep → Bool) (bsls : List (List BuildStep))
  | appendStep (init : BuildStep → Bool) (step : BuildStep)
  | nextBuildQueue (result : Bool)
  | cancel

/-- Running an operation: the state it leaves, or the fault that stops it. -/
def runOperation : Operation → BuildManagerPrivate → Except Fault BuildManagerPrivate
  | .buildLists init bsls, d =>
    match buildLists init bsls d with
    | .error fault => .error fault
    | .ok (_, d') => .ok d'
  | .appendStep init step, d => appendStep init step d
  | .nextBuildQueue result, d => nextBuildQueue result d
  | .cancel, d => cancel d

/-- The calls of `decrementActiveBuildSteps` an operation makes, in order. `buildLists` and
`appendStep` make none: `buildQueueAppend` only increments, and `startBuildQueue` and
`nextStep` leave the counts alone. -/
def decrementCalls : Operation → BuildManagerPrivate → List DecrementCall
  | .buildLists _ _, _ => []
  | .appendStep _ _, _ => []
  | .nextBuildQueue result, d => nextBuildQueueCalls result d
  | .cancel, d => cancelCalls d

/-- An `init` under which every step initialises. -/
def initAll : BuildStep → Bool := fun _ => true

/-- An `init` under which the step with address 11 fails to initialise. -/
def initFails11 : BuildStep → Bool := fun bs => bs.id != 11

end ProjectExplorer

/-! ## Part 3: theorems about `ClangBackEnd::SymbolIndexing` -/

namespace ClangBackEnd

/-- When the loop of `SymbolIndexing::syncTasks` returns, its condition is false. -/
theorem syncTasksLoop_drained {σ : Type} (sched : TaskSchedulerInterface σ) :
    ∀ (fuel : Nat) (s s' : σ),
      SymbolIndexing.syncTasksLoop sched fuel s = some s' → sched.futuresEmpty s' = true := by
  intro fuel
  induction fuel with
  | zero => intro s s' h; simp [SymbolIndexing.syncTasksLoop] at h
  | succ n ih =>
    intro s s' h
    unfold SymbolIndexing.syncTasksLoop at h
    by_cases he : sched.futuresEmpty s = true
    · simp only [he, if_true, Option.some.injEq] at h
      subst h
      exact he
    · simp only [he] at h
      cases hw : sched.syncTasks s with
      | none => simp [hw] at h
      | some waited =>
        simp only [hw] at h
        exact ih _ _ h

/-- No task is in flight exactly when every processor of the pool is idle. -/
theorem futures_eq_nil_iff (x : SymbolIndexing) :
    TaskScheduler.futures x = [] ↔ ∀ pr ∈ x.m_collectorManger, pr.bound = none := by
  unfold TaskScheduler.futures
  induction x.m_collectorManger with
  | nil => simp
  | cons pr rest ih =>
    cases hb : pr.bound with
    | none => simp [List.filterMap_cons, hb, ih]
    | some b => simp [List.filterMap_cons, hb]

/-- A processor whose task ran to completion is idle once it has been released. -/
theorem release_runToCompletion (pr : Processor) :
    (Processor.releaseIfCompleted (Processor.runToCompletion pr)).bound = none := by
  cases hb : pr.bound with
  | none => simp [Processor.runToCompletion, Processor.releaseIfCompleted, hb]
  | some b =>
    simp [Processor.runToCompletion, Processor.releaseIfCompleted, hb, BoundTask.completed]

/-- Releasing an idle processor leaves it idle. -/
theorem release_idle (pr : Processor) (h : pr.bound = none) :
    (Processor.releaseIfCompleted pr).bound = none := by
  simp [Processor.releaseIfCompleted, h]

/-- After the blocking wait every task that was in flight is completed, so the harvest
that follows takes exactly the tasks that were in flight, in pool order. -/
theorem harvest_after_wait (pool : List Processor) :
    (((pool.map Processor.runToCompletion).filterMap (fun pr => pr.bound)).filter
        BoundTask.completed).map (fun b => b.task) =
      (pool.filterMap (fun pr => pr.bound)).map (fun b => b.task) := by
  induction pool with
  | nil => rfl
  | cons pr rest ih =>
    cases hb : pr.bound with
    | none =>
      simpa [List.filterMap_cons, Processor.runToCompletion, hb] using ih
    | some b =>
      simpa [List.filterMap_cons, Processor.runToCompletion, hb, BoundTask.completed] using ih

/-- C1. `SymbolIndexing::syncTasks` is a blocking drain: for every scheduler and every
state, whenever the call returns, the scheduler's `futures()` is empty. -/
theorem syncTasks_returns_drained {σ : Type} (sched : TaskSchedulerInterface σ) (fuel : Nat)
    (s s' : σ) (h : SymbolIndexing.syncTasks sched fuel s = some s') :
    sched.futuresEmpty s' = true :=
  syncTasksLoop_drained sched fuel _ _ h

/-- After the specified `TaskScheduler::syncTasks` has returned, no task is in flight and
the tasks that were in flight have been harvested. -/
theorem specified_syncTasks_spec (x w : SymbolIndexing) (h : TaskScheduler.syncTasks x = some w) :
    TaskScheduler.futures w = [] ∧
      w.m_indexerScheduler.harvested =
        x.m_indexerScheduler.harvested ++ (TaskScheduler.futures x).map (fun b => b.task) ∧
      w.m_indexerScheduler.isDisabled = x.m_indexerScheduler.isDisabled ∧
      w.m_collectorManger.length = x.m_collectorManger.length := by
  unfold TaskScheduler.syncTasks at h
  split at h
  · simp only [Option.some.injEq] at h
    subst h
    refine ⟨?_, ?_, rfl, ?_⟩
    · rw [futures_eq_nil_iff]
      intro pr hpr
      simp only [TaskScheduler.freeSlots, List.map_map, List.mem_map, Function.comp] at hpr
      obtain ⟨q, _, rfl⟩ := hpr
      exact release_runToCompletion q
    · simp only [TaskScheduler.freeSlots, TaskScheduler.futures]
      rw [harvest_after_wait]
    · simp [TaskScheduler.freeSlots]
  · simp at h

/-- The specified `TaskScheduler::freeSlots` changes nothing that matters when no task is
in flight. -/
theorem specified_freeSlots_idle (w : SymbolIndexing) (h : TaskScheduler.futures w = []) :
    TaskScheduler.futures (TaskScheduler.freeSlots w) = [] ∧
      (TaskScheduler.freeSlots w).m_indexerScheduler.harvested = w.m_indexerScheduler.harvested ∧
      (TaskScheduler.freeSlots w).m_indexerScheduler.isDisabled =
        w.m_indexerScheduler.isDisabled ∧
      (TaskScheduler.freeSlots w).m_collectorManger.length = w.m_collectorManger.length := by
  refine ⟨?_, ?_, rfl, ?_⟩
  · rw [futures_eq_nil_iff] at h ⊢
    intro pr hpr
    simp only [TaskScheduler.freeSlots, List.mem_map] at hpr
    obtain ⟨q, hq, rfl⟩ := hpr
    exact release_idle q (h q hq)
  · simp [TaskScheduler.freeSlots, h]
  · simp [TaskScheduler.freeSlots]

/-- With no task in flight the loop returns at once, whatever fuel is left. -/
theorem specified_loop_idle (x : SymbolIndexing) (n : Nat) (h : TaskScheduler.futures x = []) :
    SymbolIndexing.syncTasksLoop TaskScheduler.specified (n + 1) x = some x := by
  simp [SymbolIndexing.syncTasksLoop, TaskScheduler.specified, h]

/-- With a task in flight the loop waits, harvests and goes round again. -/
theorem specified_loop_busy (x : SymbolIndexing) (n : Nat) (h : TaskScheduler.futures x ≠ []) :
    SymbolIndexing.syncTasksLoop TaskScheduler.specified (n + 1) x =
      match TaskScheduler.syncTasks x with
      | none => none
      | some w => SymbolIndexing.syncTasksLoop TaskScheduler.specified n
          (TaskScheduler.freeSlots w) := by
  have he : (TaskScheduler.futures x).isEmpty = false := by
    cases hf : TaskScheduler.futures x with
    | nil => exact absurd hf h
    | cons b rest => rfl
  simp only [SymbolIndexing.syncTasksLoop, TaskScheduler.specified, he, Bool.false_eq_true,
    if_false]
  cases TaskScheduler.syncTasks x <;> rfl

/-- The wait of the specified scheduler returns when every in-flight task completes. -/
theorem specified_syncTasks_returns (x : SymbolIndexing)
    (h : ∀ b ∈ TaskScheduler.futures x, b.remaining ≠ none) :
    ∃ w, TaskScheduler.syncTasks x = some w := by
  unfold TaskScheduler.syncTasks
  have hall : (TaskScheduler.futures x).all (fun b => b.remaining.isSome) = true := by
    rw [List.all_eq_true]
    intro b hb
    cases hr : b.remaining with
    | none => exact absurd hr (h b hb)
    | some n => rfl
  simp [hall]

/-- What `SymbolIndexing::syncTasks` returns over the specified scheduler, if it returns. -/
theorem specified_syncTasks_result (x x' : SymbolIndexing) (fuel : Nat)
    (h : SymbolIndexing.syncTasks TaskScheduler.specified fuel x = some x') :
    TaskScheduler.futures x' = [] ∧
      x'.m_indexerScheduler.harvested =
        x.m_indexerScheduler.harvested ++ (TaskScheduler.futures x).map (fun b => b.task) ∧
      x'.m_indexerScheduler.isDisabled = true ∧
      x'.m_collectorManger.length = x.m_collectorManger.length := by
  unfold SymbolIndexing.syncTasks at h
  have hd : TaskScheduler.specified.disable x = TaskScheduler.disable x := rfl
  rw [hd] at h
  have hfut : TaskScheduler.futures (TaskScheduler.disable x) = TaskScheduler.futures x := rfl
  cases fuel with
  | zero => simp [SymbolIndexing.syncTasksLoop] at h
  | succ n =>
    by_cases hidle : TaskScheduler.futures (TaskScheduler.disable x) = []
    · rw [specified_loop_idle _ _ hidle, Option.some.injEq] at h
      subst h
      refine ⟨hidle, ?_, rfl, rfl⟩
      rw [← hfut, hidle]
      simp [TaskScheduler.disable]
    · rw [specified_loop_busy _ _ hidle] at h
      cases hw : TaskScheduler.syncTasks (TaskScheduler.disable x) with
      | none => simp [hw] at h
      | some w =>
        simp only [hw] at h
        obtain ⟨hw1, hw2, hw3, hw4⟩ := specified_syncTasks_spec _ _ hw
        obtain ⟨hf1, hf2, hf3, hf4⟩ := specified_freeSlots_idle w hw1
        cases n with
        | zero => simp [SymbolIndexing.syncTasksLoop] at h
        | succ m =>
          rw [specified_loop_idle _ _ hf1, Option.some.injEq] at h
          subst h
          refine ⟨hf1, ?_, ?_, ?_⟩
          · rw [hf2, hw2, hfut]
            rfl
          · rw [hf3, hw3]
            rfl
          · rw [hf4, hw4]
            rfl

/-- `SymbolIndexing::syncTasks` over the specified scheduler returns, with two evaluations
of the loop condition at most, when every in-flight task completes. -/
theorem specified_syncTasks_returns_fuel (x : SymbolIndexing) (fuel : Nat) (hfuel : 2 ≤ fuel)
    (h : ∀ b ∈ TaskScheduler.futures x, b.remaining ≠ none) :
    ∃ x', SymbolIndexing.syncTasks TaskScheduler.specified fuel x = some x' := by
  obtain ⟨n, rfl⟩ : ∃ n, fuel = n + 2 := ⟨fuel - 2, by omega⟩
  unfold SymbolIndexing.syncTasks
  have hd : TaskScheduler.specified.disable x = TaskScheduler.disable x := rfl
  rw [hd]
  have hfut : TaskScheduler.futures (TaskScheduler.disable x) = TaskScheduler.futures x := rfl
  by_cases hidle : TaskScheduler.futures (TaskScheduler.disable x) = []
  · exact ⟨_, specified_loop_idle _ _ hidle⟩
  · obtain ⟨w, hw⟩ := specified_syncTasks_returns (TaskScheduler.disable x) (by rw [hfut]; exact h)
    rw [specified_loop_busy _ _ hidle]
    simp only [hw]
    obtain ⟨hw1, -⟩ := specified_syncTasks_spec _ _ hw
    obtain ⟨hf1, -⟩ := specified_freeSlots_idle w hw1
    exact ⟨_, specified_loop_idle _ _ hf1⟩

/-- The wait never returns while some in-flight task never completes. -/
theorem specified_syncTasks_blocks (x : SymbolIndexing) (fuel : Nat)
    (h : ∃ b ∈ TaskScheduler.futures x, b.remaining = none) :
    SymbolIndexing.syncTasks TaskScheduler.specified fuel x = none := by
  obtain ⟨b, hb, hnone⟩ := h
  unfold SymbolIndexing.syncTasks
  have hd : TaskScheduler.specified.disable x = TaskScheduler.disable x := rfl
  rw [hd]
  have hfut : TaskScheduler.futures (TaskScheduler.disable x) = TaskScheduler.futures x := rfl
  cases fuel with
  | zero => rfl
  | succ n =>
    have hbusy : TaskScheduler.futures (TaskScheduler.disable x) ≠ [] := by
      rw [hfut]
      intro hnil
      rw [hnil] at hb
      cases hb
    rw [specified_loop_busy _ _ hbusy]
    have hwait : TaskScheduler.syncTasks (TaskScheduler.disable x) = none := by
      unfold TaskScheduler.syncTasks
      rw [hfut]
      have hall : (TaskScheduler.futures x).all (fun b => b.remaining.isSome) = false := by
        rw [List.all_eq_false]
        exact ⟨b, hb, by simp [hnone]⟩
      simp [hall]
    simp [hwait]

/-- Witness of C1 on the sample state over the scheduler of the specification. -/
theorem syncTasks_returns_drained_witness :
    SymbolIndexing.syncTasks TaskScheduler.specified 2 sampleIndexing = some sampleDrained ∧
      TaskScheduler.specified.futuresEmpty sampleDrained = true :=
  ⟨by decide,
    syncTasks_returns_drained TaskScheduler.specified 2 sampleIndexing sampleDrained (by decide)⟩

/-- C2. `disable()` followed by `syncTasks()` terminates with every processor idle: over
the scheduler of the specification, for every state whose in-flight tasks all complete, the
loop of `SymbolIndexing::syncTasks` returns within two evaluations of its condition (one
iteration at most), and on return no processor of the pool is bound to a task; the pool
keeps its processors. -/
theorem disable_syncTasks_terminates_idle (x : SymbolIndexing) (fuel : Nat) (hfuel : 2 ≤ fuel)
    (h : ∀ b ∈ TaskScheduler.futures x, b.remaining ≠ none) :
    ∃ x', SymbolIndexing.syncTasks TaskScheduler.specified fuel x = some x' ∧
      (∀ pr ∈ x'.m_collectorManger, pr.bound = none) ∧
      x'.m_collectorManger.length = x.m_collectorManger.length := by
  obtain ⟨x', hx'⟩ := specified_syncTasks_returns_fuel x fuel hfuel h
  obtain ⟨h1, -, -, h4⟩ := specified_syncTasks_result x x' fuel hx'
  exact ⟨x', hx', (futures_eq_nil_iff x').mp h1, h4⟩

/-- Witness of C2 on the sample state. -/
theorem disable_syncTasks_terminates_idle_witness :
    (2 ≤ 2 ∧ ∀ b ∈ TaskScheduler.futures sampleIndexing, b.remaining ≠ none) ∧
      ∃ x', SymbolIndexing.syncTasks TaskScheduler.specified 2 sampleIndexing = some x' ∧
        (∀ pr ∈ x'.m_collectorManger, pr.bound = none) ∧
        x'.m_collectorManger.length = sampleIndexing.m_collectorManger.length :=
  ⟨⟨by decide, by decide⟩,
    disable_syncTasks_terminates_idle sampleIndexing 2 (by decide) (by decide)⟩

/-- Counterexample to C3 as worded: the path watcher is not stopped or destroyed before the
processor pool is released. In the shutdown sequence the pool `m_collectorManger` is
released at position 5, and the first event that touches `m_sourceWatcher` is its own
destruction at position 7. -/
theorem watcher_outlives_pool :
    stoppedBeforeReleased .m_sourceWatcher .m_collectorManger = false ∧
      releasedAt .m_collectorManger = 5 ∧ stoppedAt .m_sourceWatcher = 7 ∧
      shutdownSequence.get? 5 = some (.destroyed .m_collectorManger) ∧
      shutdownSequence.get? 7 = some (.destroyed .m_sourceWatcher) := by
  decide

/-- C3 (amended). The shutdown of a `SymbolIndexing` is the destructor body followed by the
destruction of the owned members in reverse order of declaration. In that sequence the task
scheduler is stopped (by the body) and destroyed before the processor pool and both storage
handles are released, and the path watcher is destroyed before both storage handles are
released; but the processor pool is released before the path watcher is destroyed, and
nothing in the destructor body stops the watcher. -/
theorem shutdown_order :
    shutdownSequence =
        [.schedulerDisabled, .tasksDrained] ++
          ((memberDeclarations.filter (fun m => !m.isReference)).reverse.map .destroyed) ∧
      stoppedBeforeReleased .m_indexerScheduler .m_collectorManger = true ∧
      stoppedBeforeReleased .m_indexerScheduler .m_symbolStorage = true ∧
      stoppedBeforeReleased .m_indexerScheduler .m_usedMacroAndSourceStorage = true ∧
      releasedAt .m_indexerScheduler < releasedAt .m_collectorManger ∧
      releasedAt .m_indexerScheduler < releasedAt .m_symbolStorage ∧
      releasedAt .m_indexerScheduler < releasedAt .m_usedMacroAndSourceStorage ∧
      stoppedBeforeReleased .m_sourceWatcher .m_symbolStorage = true ∧
      stoppedBeforeReleased .m_sourceWatcher .m_usedMacroAndSourceStorage = true ∧
      releasedAt .m_collectorManger < stoppedAt .m_sourceWatcher ∧
      stoppedAt .m_sourceWatcher = releasedAt .m_sourceWatcher ∧
      destructorBody.any (LifecycleEvent.stopsOrDestroys .m_sourceWatcher) = false := by
  decide

/-- Recording the calls does not change what the loop of `syncTasks` computes. -/
theorem traced_loop_fst {σ : Type} (sched : TaskSchedulerInterface σ) :
    ∀ (fuel : Nat) (s : σ) (t : List SchedulerCall),
      (SymbolIndexing.syncTasksLoop sched.traced fuel (s, t)).map Prod.fst =
        SymbolIndexing.syncTasksLoop sched fuel s := by
  intro fuel
  induction fuel with
  | zero => intro s t; rfl
  | succ n ih =>
    intro s t
    unfold SymbolIndexing.syncTasksLoop
    have he : sched.traced.futuresEmpty (s, t) = sched.futuresEmpty s := rfl
    rw [he]
    by_cases hf : sched.futuresEmpty s = true
    · rw [if_pos hf, if_pos hf]
      rfl
    · rw [if_neg hf, if_neg hf]
      cases hw : sched.syncTasks s with
      | none =>
        have hw2 : sched.traced.syncTasks (s, t) = none := by
          simp [TaskSchedulerInterface.traced, hw]
        rw [hw2]
        rfl
      | some waited =>
        have hw2 : sched.traced.syncTasks (s, t) =
            some (waited, t ++ [SchedulerCall.syncTasks]) := by
          simp [TaskSchedulerInterface.traced, hw]
        rw [hw2]
        exact ih _ _

/-- Recording the calls does not change what `SymbolIndexing::syncTasks` computes. -/
theorem traced_syncTasks_fst {σ : Type} (sched : TaskSchedulerInterface σ) (fuel : Nat)
    (s : σ) (t : List SchedulerCall) :
    (SymbolIndexing.syncTasks sched.traced fuel (s, t)).map Prod.fst =
      SymbolIndexing.syncTasks sched fuel s :=
  traced_loop_fst sched fuel _ _

/-- With no future left the recorded loop returns at once and records nothing. -/
theorem traced_loop_idle {σ : Type} (sched : TaskSchedulerInterface σ) (n : Nat) (s : σ)
    (t : List SchedulerCall) (h : sched.futuresEmpty s = true) :
    SymbolIndexing.syncTasksLoop sched.traced (n + 1) (s, t) = some (s, t) := by
  unfold SymbolIndexing.syncTasksLoop
  have he : sched.traced.futuresEmpty (s, t) = sched.futuresEmpty s := rfl
  rw [he, if_pos h]

/-- With a future left the recorded loop waits, harvests, records both calls in that order
and goes round again; it does not return when the wait does not. -/
theorem traced_loop_busy {σ : Type} (sched : TaskSchedulerInterface σ) (n : Nat) (s : σ)
    (t : List SchedulerCall) (h : ¬ sched.futuresEmpty s = true) :
    SymbolIndexing.syncTasksLoop sched.traced (n + 1) (s, t) =
      match sched.syncTasks s with
      | none => none
      | some waited =>
        SymbolIndexing.syncTasksLoop sched.traced n
          (sched.freeSlots waited, t ++ [SchedulerCall.syncTasks] ++ [SchedulerCall.freeSlots]) := by
  conv_lhs => unfold SymbolIndexing.syncTasksLoop
  have he : sched.traced.futuresEmpty (s, t) = sched.futuresEmpty s := rfl
  rw [he, if_neg h]
  cases hw : sched.syncTasks s with
  | none =>
    have hw2 : sched.traced.syncTasks (s, t) = none := by
      simp [TaskSchedulerInterface.traced, hw]
    rw [hw2]
  | some waited =>
    have hw2 : sched.traced.syncTasks (s, t) =
        some (waited, t ++ [SchedulerCall.syncTasks]) := by
      simp [TaskSchedulerInterface.traced, hw]
    rw [hw2]
    rfl

/-- The calls `SymbolIndexing::syncTasks` makes on the scheduler of the specification:
`disable()` first, then, when a task was in flight, one `syncTasks()` followed by one
`freeSlots()`. -/
theorem specified_traced_calls (x x' : SymbolIndexing) (fuel : Nat)
    (calls : List SchedulerCall)
    (h : SymbolIndexing.syncTasks TaskScheduler.specified.traced fuel (x, []) =
      some (x', calls)) :
    calls = SchedulerCall.disable ::
      (if TaskScheduler.futures x = [] then []
        else [SchedulerCall.syncTasks, SchedulerCall.freeSlots]) := by
  unfold SymbolIndexing.syncTasks at h
  have hd : TaskScheduler.specified.traced.disable (x, []) =
      (TaskScheduler.disable x, [SchedulerCall.disable]) := rfl
  rw [hd] at h
  have hfut : TaskScheduler.futures (TaskScheduler.disable x) = TaskScheduler.futures x := rfl
  have hempty : ∀ y : SymbolIndexing,
      TaskScheduler.specified.futuresEmpty y = true ↔ TaskScheduler.futures y = [] := by
    intro y
    show (TaskScheduler.futures y).isEmpty = true ↔ _
    exact List.isEmpty_iff
  cases fuel with
  | zero => simp [SymbolIndexing.syncTasksLoop] at h
  | succ n =>
    by_cases hidle : TaskScheduler.futures (TaskScheduler.disable x) = []
    · rw [traced_loop_idle _ _ _ _ ((hempty _).mpr hidle), Option.some.injEq,
        Prod.mk.injEq] at h
      rw [← h.2, if_pos (hfut ▸ hidle)]
    · have hbusy : ¬ TaskScheduler.specified.futuresEmpty (TaskScheduler.disable x) = true :=
        fun e => hidle ((hempty _).mp e)
      rw [traced_loop_busy _ _ _ _ hbusy] at h
      have hs : TaskScheduler.specified.syncTasks (TaskScheduler.disable x) =
          TaskScheduler.syncTasks (TaskScheduler.disable x) := rfl
      rw [hs] at h
      cases hw : TaskScheduler.syncTasks (TaskScheduler.disable x) with
      | none => simp [hw] at h
      | some w =>
        simp only [hw] at h
        obtain ⟨hw1, -⟩ := specified_syncTasks_spec _ _ hw
        obtain ⟨hf1, -⟩ := specified_freeSlots_idle w hw1
        cases n with
        | zero => simp [SymbolIndexing.syncTasksLoop] at h
        | succ m =>
          have hfs : TaskScheduler.specified.freeSlots w = TaskScheduler.freeSlots w := rfl
          rw [hfs, traced_loop_idle _ _ _ _ ((hempty _).mpr hf1), Option.some.injEq,
            Prod.mk.injEq] at h
          rw [← h.2, if_neg (hfut ▸ hidle)]
          rfl

/-- `disable()` discards the queued tasks, and neither the wait nor the harvest brings any
back: when `SymbolIndexing::syncTasks` returns over the scheduler of the specification, the
queue is empty. -/
theorem specified_syncTasks_queue (x x' : SymbolIndexing) (fuel : Nat)
    (h : SymbolIndexing.syncTasks TaskScheduler.specified fuel x = some x') :
    x'.m_indexerQueue = [] := by
  unfold SymbolIndexing.syncTasks at h
  have hd : TaskScheduler.specified.disable x = TaskScheduler.disable x := rfl
  rw [hd] at h
  cases fuel with
  | zero => simp [SymbolIndexing.syncTasksLoop] at h
  | succ n =>
    by_cases hidle : TaskScheduler.futures (TaskScheduler.disable x) = []
    · rw [specified_loop_idle _ _ hidle, Option.some.injEq] at h
      subst h
      rfl
    · rw [specified_loop_busy _ _ hidle] at h
      cases hw : TaskScheduler.syncTasks (TaskScheduler.disable x) with
      | none => simp [hw] at h
      | some w =>
        simp only [hw] at h
        have hwq : w.m_indexerQueue = [] := by
          unfold TaskScheduler.syncTasks at hw
          split at hw
          · simp only [Option.some.injEq] at hw
            subst hw
            rfl
          · cases hw
        obtain ⟨hw1, -⟩ := specified_syncTasks_spec _ _ hw
        obtain ⟨hf1, -⟩ := specified_freeSlots_idle w hw1
        cases n with
        | zero => simp [SymbolIndexing.syncTasksLoop] at h
        | succ m =>
          rw [specified_loop_idle _ _ hf1, Option.some.injEq] at h
          subst h
          exact hwq

/-- C4. Destroying a `SymbolIndexing` never preempts or abandons a running task: the
destructor first stops further dispatch and then waits. Over the scheduler of the
specification, with the calls made on it recorded, whenever the destructor body has
returned: the first call it made is `disable()` and the only calls after it are one
`syncTasks()` followed by one `freeSlots()`, made exactly when a task was in flight; the
state is the one the destructor reaches without the record; dispatch is disabled and no
queued task is left to dispatch; no task is in flight at the moment the first member
(`m_indexer`) is destroyed; and every task that was in flight when the destructor started
has been harvested after completing, and no other. The body does return when every
in-flight task completes. -/
theorem destructor_abandons_no_task (x : SymbolIndexing) (fuel : Nat) :
    (∀ x' calls order,
        SymbolIndexing.destructor TaskScheduler.specified.traced fuel (x, []) =
          some ((x', calls), order) →
        calls = SchedulerCall.disable ::
          (if TaskScheduler.futures x = [] then []
            else [SchedulerCall.syncTasks, SchedulerCall.freeSlots]) ∧
        SymbolIndexing.destructor TaskScheduler.specified fuel x = some (x', order) ∧
        x'.m_indexerScheduler.isDisabled = true ∧
        x'.m_indexerQueue = [] ∧
        TaskScheduler.futures x' = [] ∧
        x'.m_indexerScheduler.harvested =
          x.m_indexerScheduler.harvested ++ (TaskScheduler.futures x).map (fun b => b.task) ∧
        order = destructionOrder ∧
        order.head? = some Member.m_indexer) ∧
      ((∀ b ∈ TaskScheduler.futures x, b.remaining ≠ none) → 2 ≤ fuel →
        ∃ x', SymbolIndexing.destructor TaskScheduler.specified.traced fuel (x, []) =
          some ((x', SchedulerCall.disable ::
            (if TaskScheduler.futures x = [] then []
              else [SchedulerCall.syncTasks, SchedulerCall.freeSlots])), destructionOrder)) := by
  have hlink := traced_syncTasks_fst TaskScheduler.specified fuel x []
  constructor
  · intro x' calls order h
    unfold SymbolIndexing.destructor at h
    cases hs : SymbolIndexing.syncTasks TaskScheduler.specified.traced fuel (x, []) with
    | none => simp [hs] at h
    | some r =>
      obtain ⟨y, t⟩ := r
      simp only [hs, Option.map_some', Option.some.injEq, Prod.mk.injEq] at h
      obtain ⟨⟨rfl, rfl⟩, rfl⟩ := h
      rw [hs, Option.map_some'] at hlink
      have hplain : SymbolIndexing.syncTasks TaskScheduler.specified fuel x = some y :=
        hlink.symm
      obtain ⟨h1, h2, h3, -⟩ := specified_syncTasks_result x y fuel hplain
      refine ⟨specified_traced_calls x y fuel t hs, ?_, h3,
        specified_syncTasks_queue x y fuel hplain, h1, h2, rfl, by decide⟩
      simp [SymbolIndexing.destructor, hplain]
  · intro hcomp hfuel
    obtain ⟨x', hx'⟩ := specified_syncTasks_returns_fuel x fuel hfuel hcomp
    rw [hx'] at hlink
    cases hs : SymbolIndexing.syncTasks TaskScheduler.specified.traced fuel (x, []) with
    | none => simp [hs] at hlink
    | some r =>
      obtain ⟨y, t⟩ := r
      rw [hs, Option.map_some', Option.some.injEq] at hlink
      have hy : y = x' := hlink
      subst hy
      have hcalls := specified_traced_calls x y fuel t hs
      subst hcalls
      exact ⟨y, by simp [SymbolIndexing.destructor, hs]⟩

/-- Witness of C4 on the sample state: two tasks are in flight, so the destructor body
calls `disable()`, `syncTasks()` and `freeSlots()`, in that order. -/
theorem destructor_abandons_no_task_witness :
    ([SchedulerCall.disable, SchedulerCall.syncTasks, SchedulerCall.freeSlots] =
          SchedulerCall.disable ::
            (if TaskScheduler.futures sampleIndexing = [] then []
              else [SchedulerCall.syncTasks, SchedulerCall.freeSlots]) ∧
        SymbolIndexing.destructor TaskScheduler.specified 2 sampleIndexing =
          some (sampleDrained, destructionOrder) ∧
        sampleDrained.m_indexerScheduler.isDisabled = true ∧
        sampleDrained.m_indexerQueue = [] ∧
        TaskScheduler.futures sampleDrained = [] ∧
        sampleDrained.m_indexerScheduler.harvested =
          sampleIndexing.m_indexerScheduler.harvested ++
            (TaskScheduler.futures sampleIndexing).map (fun b => b.task) ∧
        destructionOrder = destructionOrder ∧
        destructionOrder.head? = some Member.m_indexer) ∧
      ∃ x', SymbolIndexing.destructor TaskScheduler.specified.traced 2 (sampleIndexing, []) =
        some ((x', SchedulerCall.disable ::
          (if TaskScheduler.futures sampleIndexing = [] then []
            else [SchedulerCall.syncTasks, SchedulerCall.freeSlots])), destructionOrder) :=
  ⟨(destructor_abandons_no_task sampleIndexing 2).1 sampleDrained
      [SchedulerCall.disable, SchedulerCall.syncTasks, SchedulerCall.freeSlots]
      destructionOrder (by decide),
    (destructor_abandons_no_task sampleIndexing 2).2 (by decide) (by decide)⟩

/-- C5. The concurrency limit is the hardware thread count: for every value that
`std::thread::hardware_concurrency()` returns at construction, the constructor of
`SymbolIndexing` builds the task scheduler over the object's own collector manager and own
task queue with exactly that value as the concurrency limit, and the scheduler starts
enabled. -/
theorem construct_scheduler_limit (hardware_concurrency : Nat) :
    (SymbolIndexing.construct hardware_concurrency).m_indexerScheduler.hardwareConcurrency =
        hardware_concurrency ∧
      (SymbolIndexing.construct hardware_concurrency).m_indexerScheduler.processorManager =
        Member.m_collectorManger ∧
      (SymbolIndexing.construct hardware_concurrency).m_indexerScheduler.queue =
        Member.m_indexerQueue ∧
      (SymbolIndexing.construct hardware_concurrency).m_indexerScheduler.isDisabled = false :=
  ⟨rfl, rfl, rfl, rfl⟩

end ClangBackEnd

/-! ## Part 4: theorems about `ProjectExplorer::BuildManager` -/

namespace ProjectExplorer

/-- Reading a count after a write: the written key has the new value, every other key is
untouched. -/
theorem findCount_setCount (pro q : Project) (value : Int) (hash : List (Project × Int)) :
    findCount (setCount pro value hash) q =
      if q = pro then some value else findCount hash q := by
  induction hash with
  | nil =>
    by_cases hq : q = pro
    · simp [setCount, findCount, List.lookup, hq]
    · have hb : (q == pro) = false := by simpa using hq
      simp [setCount, findCount, List.lookup, hq, hb]
  | cons entry rest ih =>
    obtain ⟨key, old⟩ := entry
    unfold findCount at ih ⊢
    by_cases hk : key = pro
    · by_cases hq : q = pro
      · simp [setCount, List.lookup, hk, hq]
      · have hb : (q == pro) = false := by simpa using hq
        simp [setCount, List.lookup, hk, hq, hb]
    · by_cases hqk : q = key
      · have hq : ¬ q = pro := fun h => hk (hqk ▸ h)
        have hb : (q == key) = true := by simpa using hqk
        simp [setCount, List.lookup, hk, hq, hb]
      · have hb : (q == key) = false := by simpa using hqk
        simp only [setCount, hk, if_false, List.lookup, hb, ih]

/-- A project with a positive count has an entry. -/
theorem find_of_activeBuildSteps_pos (pro : Project) (d : BuildManagerPrivate)
    (h : 1 ≤ activeBuildSteps pro d) : findCount d.m_activeBuildSteps pro ≠ none := by
  intro hnone
  simp [activeBuildSteps, hnone] at h

/-- What `incrementActiveBuildSteps` does: the count of the project grows by one, nothing
else changes, and only `buildStateChanged` may be emitted. -/
theorem incrementActiveBuildSteps_spec (pro : Project) (d : BuildManagerPrivate) :
    (incrementActiveBuildSteps pro d).control = d.control ∧
      (∀ q, activeBuildSteps q (incrementActiveBuildSteps pro d) =
        activeBuildSteps q d + (if q = pro then 1 else 0)) ∧
      initCalls (incrementActiveBuildSteps pro d) = initCalls d ∧
      runsStarted (incrementActiveBuildSteps pro d) = runsStarted d ∧
      finishedSignals (incrementActiveBuildSteps pro d) = finishedSignals d := by
  unfold incrementActiveBuildSteps
  cases hf : findCount d.m_activeBuildSteps pro with
  | none =>
    refine ⟨rfl, ?_, ?_, ?_, ?_⟩
    · intro q
      simp only [activeBuildSteps, BuildManagerPrivate.emit, findCount_setCount]
      by_cases hq : q = pro
      · subst hq
        simp [hf]
      · simp [hq]
    · simp [initCalls, BuildManagerPrivate.emit, List.filterMap_append]
    · simp [runsStarted, BuildManagerPrivate.emit, List.filterMap_append]
    · simp [finishedSignals, BuildManagerPrivate.emit, List.filterMap_append]
  | some count =>
    have hcount : ∀ q, (if q = pro then some (count + 1)
        else findCount d.m_activeBuildSteps q).getD 0 =
          (findCount d.m_activeBuildSteps q).getD 0 + (if q = pro then 1 else 0) := by
      intro q
      by_cases hq : q = pro
      · subst hq
        simp [hf]
      · simp [hq]
    by_cases hz : count = 0
    · simp only [hz, if_true]
      refine ⟨rfl, ?_, ?_, ?_, ?_⟩
      · intro q
        have := hcount q
        simp only [hz] at this
        simpa only [activeBuildSteps, BuildManagerPrivate.emit, findCount_setCount] using this
      · simp [initCalls, BuildManagerPrivate.emit, List.filterMap_append]
      · simp [runsStarted, BuildManagerPrivate.emit, List.filterMap_append]
      · simp [finishedSignals, BuildManagerPrivate.emit, List.filterMap_append]
    · simp only [hz, if_false]
      refine ⟨rfl, ?_, rfl, rfl, rfl⟩
      intro q
      simpa only [activeBuildSteps, findCount_setCount] using hcount q

/-- What `decrementActiveBuildSteps` does when it reaches its end: the count of the project
drops by one, nothing else changes, and only `buildStateChanged` may be emitted. -/
theorem decrementActiveBuildSteps_spec (pro : Project) (d d' : BuildManagerPrivate)
    (h : decrementActiveBuildSteps pro d = .ok d') :
    d'.control = d.control ∧
      (∀ q, activeBuildSteps q d' = activeBuildSteps q d - (if q = pro then 1 else 0)) ∧
      (∀ q, findCount d.m_activeBuildSteps q ≠ none → findCount d'.m_activeBuildSteps q ≠ none) ∧
      initCalls d' = initCalls d ∧
      runsStarted d' = runsStarted d ∧
      finishedSignals d' = finishedSignals d := by
  unfold decrementActiveBuildSteps at h
  cases hf : findCount d.m_activeBuildSteps pro with
  | none => simp [hf] at h
  | some count =>
    simp only [hf] at h
    have hcount : ∀ q, (if q = pro then some (count - 1)
        else findCount d.m_activeBuildSteps q).getD 0 =
          (findCount d.m_activeBuildSteps q).getD 0 - (if q = pro then 1 else 0) := by
      intro q
      by_cases hq : q = pro
      · subst hq
        simp [hf]
      · simp [hq]
    have hkeep : ∀ q, findCount d.m_activeBuildSteps q ≠ none →
        (if q = pro then some (count - 1) else findCount d.m_activeBuildSteps q) ≠ none := by
      intro q hq
      by_cases hqp : q = pro
      · simp [hqp]
      · simpa [hqp] using hq
    by_cases ho : count = 1
    · simp only [ho, if_true, Except.ok.injEq] at h
      subst h
      refine ⟨rfl, ?_, ?_, ?_, ?_, ?_⟩
      · intro q
        have := hcount q
        simp only [ho] at this
        simpa only [activeBuildSteps, BuildManagerPrivate.emit, findCount_setCount] using this
      · intro q hq
        have := hkeep q hq
        simp only [ho] at this
        simpa only [BuildManagerPrivate.emit, findCount_setCount] using this
      · simp [initCalls, BuildManagerPrivate.emit, List.filterMap_append]
      · simp [runsStarted, BuildManagerPrivate.emit, List.filterMap_append]
      · simp [finishedSignals, BuildManagerPrivate.emit, List.filterMap_append]
    · simp only [ho, if_false, Except.ok.injEq] at h
      subst h
      refine ⟨rfl, ?_, ?_, rfl, rfl, rfl⟩
      · intro q
        simpa only [activeBuildSteps, findCount_setCount] using hcount q
      · intro q hq
        simpa only [findCount_setCount] using hkeep q hq

/-- `decrementActiveBuildSteps` reaches its end when the project has an entry. -/
theorem decrementActiveBuildSteps_ok (pro : Project) (d : BuildManagerPrivate)
    (h : findCount d.m_activeBuildSteps pro ≠ none) :
    ∃ d', decrementActiveBuildSteps pro d = .ok d' := by
  unfold decrementActiveBuildSteps
  cases hf : findCount d.m_activeBuildSteps pro with
  | none => exact absurd hf h
  | some count =>
    show ∃ d', (if count = 1 then _ else _) = Except.ok d'
    by_cases ho : count = 1
    · rw [if_pos ho]
      exact ⟨_, rfl⟩
    · rw [if_neg ho]
      exact ⟨_, rfl⟩

/-- Two states with the same control part agree on each control field. -/
theorem control_fields (d d' : BuildManagerPrivate) (h : d'.control = d.control) :
    d'.m_buildQueue = d.m_buildQueue ∧ d'.m_running = d.m_running ∧
      d'.m_currentBuildStep = d.m_currentBuildStep ∧
      d'.m_previousBuildStepProject = d.m_previousBuildStepProject ∧
      d'.m_canceling = d.m_canceling ∧ d'.m_progress = d.m_progress ∧
      d'.m_maxProgress = d.m_maxProgress ∧
      d'.m_progressFutureInterface = d.m_progressFutureInterface := by
  simpa only [BuildManagerPrivate.control, Prod.mk.injEq] using h

/-- Counting the steps of a project in a list with one more step in front. -/
theorem stepsOf_cons (q : Project) (bs : BuildStep) (rest : List BuildStep) :
    stepsOf q (bs :: rest) = stepsOf q rest + (if q = bs.project then 1 else 0) := by
  unfold stepsOf
  rw [List.countP_cons]
  by_cases h : q = bs.project
  · simp [h]
  · have h2 : ¬ bs.project = q := fun e => h e.symm
    simp [h, h2]

/-- Counting the steps of a project in two lists put end to end. -/
theorem stepsOf_append (q : Project) (l₁ l₂ : List BuildStep) :
    stepsOf q (l₁ ++ l₂) = stepsOf q l₁ + stepsOf q l₂ := by
  unfold stepsOf
  exact List.countP_append _ l₁ l₂

/-- A project is among the steps exactly when it has a positive number of steps there. -/
theorem stepsOf_pos_iff (q : Project) (steps : List BuildStep) :
    0 < stepsOf q steps ↔ ∃ bs ∈ steps, bs.project = q := by
  unfold stepsOf
  rw [List.countP_pos_iff]
  simp

/-- What the loop of `clearBuildQueue` does when it reaches its end: every count drops by
the number of steps of the project in the list, and nothing else changes. -/
theorem clearBuildQueueLoop_spec (steps : List BuildStep) :
    ∀ (d d' : BuildManagerPrivate), clearBuildQueueLoop steps d = .ok d' →
      d'.control = d.control ∧
        (∀ q, activeBuildSteps q d' = activeBuildSteps q d - (stepsOf q steps : Int)) ∧
        initCalls d' = initCalls d ∧ runsStarted d' = runsStarted d ∧
        finishedSignals d' = finishedSignals d := by
  induction steps with
  | nil =>
    intro d d' h
    simp only [clearBuildQueueLoop, Except.ok.injEq] at h
    subst h
    exact ⟨rfl, fun q => by simp [stepsOf], rfl, rfl, rfl⟩
  | cons bs rest ih =>
    intro d d' h
    unfold clearBuildQueueLoop at h
    cases hdec : decrementActiveBuildSteps bs.project d with
    | error fault => simp [hdec] at h
    | ok d1 =>
      simp only [hdec] at h
      obtain ⟨hc1, ha1, -, hi1, hr1, hf1⟩ := decrementActiveBuildSteps_spec _ _ _ hdec
      obtain ⟨hc2, ha2, hi2, hr2, hf2⟩ := ih d1 d' h
      refine ⟨hc2.trans hc1, ?_, hi2.trans hi1, hr2.trans hr1, hf2.trans hf1⟩
      intro q
      rw [ha2 q, ha1 q, stepsOf_cons]
      by_cases hq : q = bs.project
      · simp only [hq, if_true]
        push_cast
        ring
      · simp only [hq, if_false]
        push_cast
        ring

/-- The loop of `clearBuildQueue` reaches its end when every step's project has an entry. -/
theorem clearBuildQueueLoop_ok (steps : List BuildStep) :
    ∀ (d : BuildManagerPrivate),
      (∀ bs ∈ steps, findCount d.m_activeBuildSteps bs.project ≠ none) →
      ∃ d', clearBuildQueueLoop steps d = .ok d' := by
  induction steps with
  | nil => intro d _; exact ⟨d, rfl⟩
  | cons bs rest ih =>
    intro d h
    obtain ⟨d1, hd1⟩ := decrementActiveBuildSteps_ok bs.project d (h bs (List.mem_cons_self _ _))
    obtain ⟨-, -, hkeep, -⟩ := decrementActiveBuildSteps_spec _ _ _ hd1
    obtain ⟨d', hd'⟩ := ih d1 (fun b hb => hkeep _ (h b (List.mem_cons_of_mem _ hb)))
    exact ⟨d', by simp only [clearBuildQueueLoop, hd1, hd']⟩

/-- What `clearBuildQueue` does when it reaches its end. -/
theorem clearBuildQueue_spec (d d' : BuildManagerPrivate) (h : clearBuildQueue d = .ok d') :
    (d'.m_buildQueue = [] ∧ d'.m_running = false ∧ d'.m_currentBuildStep = none ∧
        d'.m_previousBuildStepProject = none ∧ d'.m_canceling = d.m_canceling ∧
        d'.m_progress = d.m_progress ∧ d'.m_maxProgress = 0 ∧
        d'.m_progressFutureInterface = false) ∧
      (∀ q, activeBuildSteps q d' = activeBuildSteps q d - (stepsOf q d.m_buildQueue : Int)) ∧
      initCalls d' = initCalls d ∧ runsStarted d' = runsStarted d ∧
      finishedSignals d' = finishedSignals d ++ [false] := by
  unfold clearBuildQueue at h
  cases hloop : clearBuildQueueLoop d.m_buildQueue d with
  | error fault => simp [hloop] at h
  | ok d1 =>
    simp only [hloop] at h
    obtain ⟨hc, ha, hi, hr, hf⟩ := clearBuildQueueLoop_spec _ _ _ hloop
    obtain ⟨-, -, -, -, hcan, hprog, -, -⟩ := control_fields _ _ hc
    by_cases hp : d1.m_progressFutureInterface = true
    · simp only [hp, if_true, Except.ok.injEq] at h
      subst h
      refine ⟨⟨rfl, rfl, rfl, rfl, hcan, hprog, rfl, rfl⟩, ?_, ?_, ?_, ?_⟩
      · intro q
        rw [← ha q]
        rfl
      · rw [← hi]
        simp [initCalls, BuildManagerPrivate.emit, List.filterMap_append]
      · rw [← hr]
        simp [runsStarted, BuildManagerPrivate.emit, List.filterMap_append]
      · rw [← hf]
        simp [finishedSignals, BuildManagerPrivate.emit, List.filterMap_append]
    · simp [hp] at h

/-- `clearBuildQueue` reaches its end when the progress future interface exists and every
queued step's project has an entry. -/
theorem clearBuildQueue_ok (d : BuildManagerPrivate)
    (hp : d.m_progressFutureInterface = true)
    (h : ∀ bs ∈ d.m_buildQueue, findCount d.m_activeBuildSteps bs.project ≠ none) :
    ∃ d', clearBuildQueue d = .ok d' := by
  obtain ⟨d1, hd1⟩ := clearBuildQueueLoop_ok _ d h
  obtain ⟨hc, -⟩ := clearBuildQueueLoop_spec _ _ _ hd1
  obtain ⟨-, -, -, -, -, -, -, hpf⟩ := control_fields _ _ hc
  unfold clearBuildQueue
  simp only [hd1, hpf, hp, if_true]
  exact ⟨_, rfl⟩

/-- What `nextStep` does when a step is queued: the step becomes the current one and its
run is started. -/
theorem nextStep_cons (d : BuildManagerPrivate) (bs : BuildStep) (rest : List BuildStep)
    (hq : d.m_buildQueue = bs :: rest) :
    ∃ d', nextStep d = .ok d' ∧
      (d'.m_buildQueue = rest ∧ d'.m_running = d.m_running ∧ d'.m_currentBuildStep = some bs ∧
        d'.m_canceling = d.m_canceling ∧ d'.m_progress = d.m_progress ∧
        d'.m_maxProgress = d.m_maxProgress ∧
        d'.m_progressFutureInterface = d.m_progressFutureInterface) ∧
      d'.m_activeBuildSteps = d.m_activeBuildSteps ∧
      initCalls d' = initCalls d ∧ runsStarted d' = runsStarted d ++ [bs] ∧
      finishedSignals d' = finishedSignals d := by
  unfold nextStep
  rw [hq]
  refine ⟨_, rfl, ?_⟩
  dsimp only [BuildManagerPrivate.emit]
  by_cases hp : some bs.project ≠ d.m_previousBuildStepProject
  · rw [if_pos hp]
    refine ⟨⟨rfl, rfl, rfl, rfl, rfl, rfl, rfl⟩, rfl, ?_, ?_, ?_⟩
    · simp [initCalls, List.filterMap_append]
    · simp [runsStarted, List.filterMap_append]
    · simp [finishedSignals, List.filterMap_append]
  · rw [if_neg hp]
    refine ⟨⟨rfl, rfl, rfl, rfl, rfl, rfl, rfl⟩, rfl, ?_, ?_, ?_⟩
    · simp [initCalls, List.filterMap_append]
    · simp [runsStarted, List.filterMap_append]
    · simp [finishedSignals, List.filterMap_append]

/-- What `nextStep` does when it reaches its end on an empty queue: the build is over and
`buildQueueFinished(true)` is emitted. -/
theorem nextStep_nil (d d' : BuildManagerPrivate) (hq : d.m_buildQueue = [])
    (h : nextStep d = .ok d') :
    (d'.m_buildQueue = [] ∧ d'.m_running = false ∧ d'.m_currentBuildStep = none ∧
        d'.m_canceling = d.m_canceling ∧ d'.m_progress = d.m_progress ∧
        d'.m_maxProgress = 0 ∧ d'.m_progressFutureInterface = false) ∧
      d'.m_activeBuildSteps = d.m_activeBuildSteps ∧
      initCalls d' = initCalls d ∧ runsStarted d' = runsStarted d ∧
      finishedSignals d' = finishedSignals d ++ [true] := by
  unfold nextStep at h
  rw [hq] at h
  by_cases hp : d.m_progressFutureInterface = true
  · simp only [hp, if_true, Except.ok.injEq] at h
    subst h
    refine ⟨⟨rfl, rfl, rfl, rfl, rfl, rfl, rfl⟩, rfl, ?_, ?_, ?_⟩
    · simp [initCalls, BuildManagerPrivate.emit, List.filterMap_append]
    · simp [runsStarted, BuildManagerPrivate.emit, List.filterMap_append]
    · simp [finishedSignals, BuildManagerPrivate.emit, List.filterMap_append]
  · simp [hp] at h

/-- `nextStep` reaches its end on an empty queue when the progress future interface
exists. -/
theorem nextStep_nil_ok (d : BuildManagerPrivate) (hq : d.m_buildQueue = [])
    (hp : d.m_progressFutureInterface = true) : ∃ d', nextStep d = .ok d' := by
  unfold nextStep
  rw [hq]
  simp only [hp, if_true]
  exact ⟨_, rfl⟩

/-- The first loop of `buildQueueAppend` in closed form: it succeeds exactly when every
step initialises, and it calls `init()` on the steps in order, up to and including the
first one that fails; nothing else changes. -/
theorem buildQueueAppendInit_eq (init : BuildStep → Bool) (steps : List BuildStep) :
    ∀ d : BuildManagerPrivate,
      buildQueueAppendInit init steps d =
        (steps.all init,
          { d with effects := d.effects ++
              (steps.take ((steps.takeWhile init).length + 1)).map Effect.initCalled }) := by
  induction steps with
  | nil => intro d; simp [buildQueueAppendInit]
  | cons bs rest ih =>
    intro d
    unfold buildQueueAppendInit
    by_cases hb : init bs = true
    · rw [if_pos hb, ih]
      simp [BuildManagerPrivate.emit, List.takeWhile_cons, hb, List.take_succ_cons]
    · rw [if_neg hb]
      have hb2 : init bs = false := by simpa using hb
      simp [BuildManagerPrivate.emit, List.takeWhile_cons, hb2]

/-- The steps on which `init()` is called are added to the record in order. -/
theorem initCalls_append_initCalled (effects : List Effect) (steps : List BuildStep) :
    (effects ++ steps.map Effect.initCalled).filterMap
        (fun e => match e with | .initCalled bs => some bs | _ => none) =
      effects.filterMap (fun e => match e with | .initCalled bs => some bs | _ => none) ++
        steps := by
  rw [List.filterMap_append]
  congr 1
  induction steps with
  | nil => rfl
  | cons bs rest ih => simp [List.filterMap_cons, ih]

/-- The last loop of `buildQueueAppend`: the steps are appended in order, `m_maxProgress`
grows by their number and each project count by the number of its steps. -/
theorem buildQueueAppendLoop_spec (steps : List BuildStep) :
    ∀ d : BuildManagerPrivate,
      ((buildQueueAppendLoop steps d).m_buildQueue = d.m_buildQueue ++ steps ∧
        (buildQueueAppendLoop steps d).m_running = d.m_running ∧
        (buildQueueAppendLoop steps d).m_currentBuildStep = d.m_currentBuildStep ∧
        (buildQueueAppendLoop steps d).m_canceling = d.m_canceling ∧
        (buildQueueAppendLoop steps d).m_progress = d.m_progress ∧
        (buildQueueAppendLoop steps d).m_maxProgress = d.m_maxProgress + steps.length ∧
        (buildQueueAppendLoop steps d).m_progressFutureInterface =
          d.m_progressFutureInterface) ∧
      (∀ q, activeBuildSteps q (buildQueueAppendLoop steps d) =
        activeBuildSteps q d + (stepsOf q steps : Int)) ∧
      initCalls (buildQueueAppendLoop steps d) = initCalls d ∧
      runsStarted (buildQueueAppendLoop steps d) = runsStarted d ∧
      finishedSignals (buildQueueAppendLoop steps d) = finishedSignals d := by
  induction steps with
  | nil =>
    intro d
    simp [buildQueueAppendLoop, stepsOf]
  | cons bs rest ih =>
    intro d
    unfold buildQueueAppendLoop
    obtain ⟨⟨h1, h2, h3, h4, h5, h6, h7⟩, ha, hi, hr, hf⟩ :=
      ih (incrementActiveBuildSteps bs.project
        { d with m_maxProgress := d.m_maxProgress + 1, m_buildQueue := d.m_buildQueue ++ [bs] })
    obtain ⟨hc, ha0, hi0, hr0, hf0⟩ := incrementActiveBuildSteps_spec bs.project
        { d with m_maxProgress := d.m_maxProgress + 1, m_buildQueue := d.m_buildQueue ++ [bs] }
    obtain ⟨c1, c2, c3, -, c5, c6, c7, c8⟩ := control_fields _ _ hc
    refine ⟨⟨?_, ?_, ?_, ?_, ?_, ?_, ?_⟩, ?_, ?_, ?_, ?_⟩
    · rw [h1, c1]
      simp
    · rw [h2, c2]
    · rw [h3, c3]
    · rw [h4, c5]
    · rw [h5, c6]
    · rw [h6, c7]
      simp only [List.length_cons]
      push_cast
      ring
    · rw [h7, c8]
    · intro q
      rw [ha q, ha0 q, stepsOf_cons]
      have hsame : activeBuildSteps q
          { d with m_maxProgress := d.m_maxProgress + 1, m_buildQueue := d.m_buildQueue ++ [bs] } =
            activeBuildSteps q d := rfl
      rw [hsame]
      by_cases hq : q = bs.project
      · simp only [hq, if_true]
        push_cast
        ring
      · simp only [hq, if_false]
        push_cast
        ring
    · rw [hi, hi0]
      rfl
    · rw [hr, hr0]
      rfl
    · rw [hf, hf0]
      rfl

/-- The two outcomes of `buildQueueAppend`, in terms of its two loops. -/
theorem buildQueueAppend_eq (init : BuildStep → Bool) (steps : List BuildStep)
    (d : BuildManagerPrivate) :
    buildQueueAppend init steps d =
      if steps.all init = true then
        (true, buildQueueAppendLoop steps (buildQueueAppendInit init steps d).2)
      else
        (false, (buildQueueAppendInit init steps d).2) := by
  unfold buildQueueAppend
  rw [buildQueueAppendInit_eq]
  by_cases h : steps.all init = true
  · rw [if_pos h]
    simp only [h]
  · rw [if_neg h]
    have h2 : steps.all init = false := by simpa using h
    simp only [h2]

/-- C6. `BuildManager::buildQueueAppend` is all-or-nothing. For every list of build steps
it returns false exactly when some step's `init()` returns false; `init()` is called on the
steps in list order, up to and including the first step that fails; when it returns false
the build queue, `m_maxProgress` and the per-project counts are as before the call; when it
returns true the steps have been appended to the queue in list order, `m_maxProgress` has
grown by the length of the list, and each project's count has grown by the number of its
steps in the list. -/
theorem buildQueueAppend_all_or_nothing (init : BuildStep → Bool) (steps : List BuildStep)
    (d : BuildManagerPrivate) :
    ((buildQueueAppend init steps d).1 = false ↔ ∃ bs ∈ steps, init bs = false) ∧
      initCalls (buildQueueAppend init steps d).2 =
        initCalls d ++ steps.take ((steps.takeWhile init).length + 1) ∧
      ((buildQueueAppend init steps d).1 = false →
        (buildQueueAppend init steps d).2.m_buildQueue = d.m_buildQueue ∧
        (buildQueueAppend init steps d).2.m_maxProgress = d.m_maxProgress ∧
        (buildQueueAppend init steps d).2.m_activeBuildSteps = d.m_activeBuildSteps) ∧
      ((buildQueueAppend init steps d).1 = true →
        (buildQueueAppend init steps d).2.m_buildQueue = d.m_buildQueue ++ steps ∧
        (buildQueueAppend init steps d).2.m_maxProgress = d.m_maxProgress + steps.length ∧
        ∀ pro, activeBuildSteps pro (buildQueueAppend init steps d).2 =
          activeBuildSteps pro d + (stepsOf pro steps : Int)) := by
  rw [buildQueueAppend_eq]
  have hinit : initCalls (buildQueueAppendInit init steps d).2 =
      initCalls d ++ steps.take ((steps.takeWhile init).length + 1) := by
    rw [buildQueueAppendInit_eq]
    exact initCalls_append_initCalled _ _
  obtain ⟨⟨h1, -, -, -, -, h6, -⟩, ha, hi, -, -⟩ :=
    buildQueueAppendLoop_spec steps (buildQueueAppendInit init steps d).2
  have hfields : (buildQueueAppendInit init steps d).2.m_buildQueue = d.m_buildQueue ∧
      (buildQueueAppendInit init steps d).2.m_maxProgress = d.m_maxProgress ∧
      (buildQueueAppendInit init steps d).2.m_activeBuildSteps = d.m_activeBuildSteps := by
    rw [buildQueueAppendInit_eq]
    exact ⟨rfl, rfl, rfl⟩
  by_cases h : steps.all init = true
  · rw [if_pos h]
    refine ⟨?_, ?_, ?_, ?_⟩
    · constructor
      · intro hf
        cases hf
      · rintro ⟨bs, hbs, hfail⟩
        rw [List.all_eq_true] at h
        rw [h bs hbs] at hfail
        cases hfail
    · exact hi.trans hinit
    · intro hf
      cases hf
    · intro _
      refine ⟨?_, ?_, ?_⟩
      · rw [h1, hfields.1]
      · rw [h6, hfields.2.1]
      · intro pro
        rw [ha pro]
        unfold activeBuildSteps
        rw [hfields.2.2]
  · rw [if_neg h]
    refine ⟨?_, hinit, fun _ => hfields, ?_⟩
    · constructor
      · intro _
        have h2 : steps.all init = false := by simpa using h
        rw [List.all_eq_false] at h2
        obtain ⟨bs, hbs, hfail⟩ := h2
        exact ⟨bs, hbs, by simpa using hfail⟩
      · intro _
        rfl
    · intro hf
      cases hf

/-- The running-step term of a project while a step is running. -/
theorem runningStepOf_running (q : Project) (d : BuildManagerPrivate) (current : BuildStep)
    (hr : d.m_running = true) (hc : d.m_currentBuildStep = some current) :
    runningStepOf q d = if q = current.project then 1 else 0 := by
  unfold runningStepOf
  rw [hc]
  by_cases h : q = current.project
  · simp [hr, h]
  · have h2 : ¬ current.project = q := fun e => h e.symm
    simp [h, h2]

/-- The running-step term is zero while nothing is running. -/
theorem runningStepOf_idle (q : Project) (d : BuildManagerPrivate) (hr : d.m_running = false) :
    runningStepOf q d = 0 := by
  unfold runningStepOf
  cases d.m_currentBuildStep with
  | none => rfl
  | some current => simp [hr]

/-- The running-step term only reads `m_running` and `m_currentBuildStep`. -/
theorem runningStepOf_congr (q : Project) (d d' : BuildManagerPrivate)
    (hr : d'.m_running = d.m_running) (hc : d'.m_currentBuildStep = d.m_currentBuildStep) :
    runningStepOf q d' = runningStepOf q d := by
  unfold runningStepOf
  rw [hr, hc]

/-- The count only reads `m_activeBuildSteps`. -/
theorem activeBuildSteps_congr (q : Project) (d d' : BuildManagerPrivate)
    (h : d'.m_activeBuildSteps = d.m_activeBuildSteps) :
    activeBuildSteps q d' = activeBuildSteps q d := by
  unfold activeBuildSteps
  rw [h]

/-- A freshly constructed manager satisfies the invariant, whatever the uninitialised
members hold. -/
theorem Inv_initial (m_currentBuildStep : Option BuildStep) (m_progress : Int) :
    Inv (BuildManagerPrivate.initial m_currentBuildStep m_progress) := by
  refine ⟨⟨?_, ?_, rfl⟩, fun _ => rfl⟩
  · intro pro
    rw [runningStepOf_idle pro _ rfl]
    rfl
  · intro h
    cases h

/-- After `buildQueueAppend` the counts are right again; only the queue may be non-empty
although nothing is running yet. -/
theorem Counted_buildQueueAppend (init : BuildStep → Bool) (steps : List BuildStep)
    (d : BuildManagerPrivate) (h : Counted d) :
    Counted (buildQueueAppend init steps d).2 ∧
      (buildQueueAppend init steps d).2.m_running = d.m_running ∧
      ((buildQueueAppend init steps d).1 = false →
        (buildQueueAppend init steps d).2.m_buildQueue = d.m_buildQueue) := by
  obtain ⟨hcount, hrun, hpf⟩ := h
  rw [buildQueueAppend_eq]
  have e0 := buildQueueAppendInit_eq init steps d
  obtain ⟨⟨h1, h2, h3, h4, -, -, h7⟩, ha, -, -, -⟩ :=
    buildQueueAppendLoop_spec steps (buildQueueAppendInit init steps d).2
  rw [e0] at h1 h2 h3 h4 h7 ha
  by_cases hall : steps.all init = true
  · rw [if_pos hall, e0]
    refine ⟨⟨?_, ?_, ?_⟩, h2, ?_⟩
    · intro pro
      rw [ha pro, h1, stepsOf_append, runningStepOf_congr pro d _ h2 h3]
      have hsame : activeBuildSteps pro
          { d with effects := d.effects ++
              (steps.take ((steps.takeWhile init).length + 1)).map Effect.initCalled } =
            activeBuildSteps pro d := rfl
      rw [hsame, hcount pro]
      push_cast
      ring
    · intro hr
      rw [h2] at hr
      rw [h3, h4]
      exact hrun hr
    · rw [h7, h2]
      exact hpf
    · intro hf
      cases hf
  · rw [if_neg hall, e0]
    exact ⟨⟨hcount, hrun, hpf⟩, rfl, fun _ => rfl⟩

/-- `startBuildQueue` reaches its end and establishes the invariant when the counts are
right. -/
theorem startBuildQueue_inv (d : BuildManagerPrivate) (h : Counted d) :
    ∃ d', startBuildQueue d = .ok d' ∧ Inv d' := by
  obtain ⟨hcount, hrun, hpf⟩ := h
  unfold startBuildQueue
  by_cases he : d.m_buildQueue = []
  · have hempty : d.m_buildQueue.isEmpty = true := by simp [he]
    rw [if_pos hempty]
    refine ⟨_, rfl, ⟨⟨?_, hrun, hpf⟩, fun _ => he⟩⟩
    intro pro
    exact hcount pro
  · obtain ⟨bs, rest, hq⟩ := List.exists_cons_of_ne_nil he
    have hempty : ¬ d.m_buildQueue.isEmpty = true := by simp [hq]
    rw [if_neg hempty]
    by_cases hr : d.m_running = true
    · have hp : d.m_progressFutureInterface = true := hpf.trans hr
      simp only [hr, Bool.not_true, Bool.false_eq_true, if_false, hp, if_true]
      refine ⟨d, rfl, ⟨⟨hcount, hrun, hpf⟩, ?_⟩⟩
      intro hfalse
      rw [hr] at hfalse
      cases hfalse
    · have hr2 : d.m_running = false := by simpa using hr
      simp only [hr2, Bool.not_false, if_true]
      obtain ⟨d', hd', ⟨f1, f2, f3, f4, -, -, f7⟩, fh, -, -, -⟩ :=
        nextStep_cons { d with
                        m_progressFutureInterface := true
                        m_progress := 0
                        m_running := true
                        m_canceling := false } bs rest hq
      refine ⟨d', hd', ⟨⟨?_, ?_, ?_⟩, ?_⟩⟩
      · intro pro
        rw [activeBuildSteps_congr pro _ d' fh, runningStepOf_running pro d' bs f2 f3, f1]
        have hsame : activeBuildSteps pro { d with
                        m_progressFutureInterface := true
                        m_progress := 0
                        m_running := true
                        m_canceling := false } = activeBuildSteps pro d := rfl
        rw [hsame, hcount pro, hq, stepsOf_cons, runningStepOf_idle pro d hr2]
        push_cast
        ring
      · intro _
        rw [f3, f4]
        exact ⟨by simp, rfl⟩
      · rw [f7, f2]
      · intro hfalse
        rw [f2] at hfalse
        cases hfalse

/-- `buildLists` reaches its end and keeps the invariant. -/
theorem buildLists_inv (init : BuildStep → Bool) (bsls : List (List BuildStep))
    (d : BuildManagerPrivate) (h : Inv d) :
    ∃ r, buildLists init bsls d = .ok r ∧ Inv r.2 := by
  obtain ⟨hc, hidle⟩ := h
  obtain ⟨hc1, hr1, hq1⟩ := Counted_buildQueueAppend init bsls.flatten d hc
  unfold buildLists
  cases hb : buildQueueAppend init bsls.flatten d with
  | mk success d1 =>
    rw [hb] at hc1 hr1 hq1
    cases success with
    | false =>
      refine ⟨(false, d1), rfl, hc1, ?_⟩
      intro hr
      show d1.m_buildQueue = []
      rw [hq1 rfl]
      exact hidle (hr1 ▸ hr)
    | true =>
      obtain ⟨d2, hd2, hinv⟩ := startBuildQueue_inv d1 hc1
      simp only [hd2]
      exact ⟨(true, d2), rfl, hinv⟩

/-- `appendStep` reaches its end and keeps the invariant. -/
theorem appendStep_inv (init : BuildStep → Bool) (step : BuildStep)
    (d : BuildManagerPrivate) (h : Inv d) :
    ∃ d', appendStep init step d = .ok d' ∧ Inv d' := by
  obtain ⟨hc, hidle⟩ := h
  obtain ⟨hc1, hr1, hq1⟩ := Counted_buildQueueAppend init [step] d hc
  unfold appendStep
  cases hb : buildQueueAppend init [step] d with
  | mk success d1 =>
    rw [hb] at hc1 hr1 hq1
    cases success with
    | false =>
      refine ⟨d1, rfl, hc1, ?_⟩
      intro hr
      show d1.m_buildQueue = []
      rw [hq1 rfl]
      exact hidle (hr1 ▸ hr)
    | true => exact startBuildQueue_inv d1 hc1

/-- The body of `nextBuildQueue` once its three guards have been passed. -/
theorem nextBuildQueue_eq (result : Bool) (d : BuildManagerPrivate) (current : BuildStep)
    (hc : d.m_canceling = false) (hp : d.m_progressFutureInterface = true)
    (hcur : d.m_currentBuildStep = some current) :
    nextBuildQueue result d =
      (decrementActiveBuildSteps current.project
        { d with m_progress := d.m_progress + 1 }).bind
        (fun d1 => if result = true then nextStep d1 else clearBuildQueue d1) := by
  obtain ⟨queue, running, cur, hash, prev, canceling, progress, maxProgress, pfi, effects⟩ := d
  dsimp only at hc hp hcur
  subst hc hp hcur
  unfold nextBuildQueue
  dsimp only
  simp only [Bool.false_eq_true, if_false, if_true]
  split <;> rename_i heq <;> rw [heq] <;> rfl

/-- The guards `nextBuildQueue` has passed when it reaches its end and no cancellation is
under way. -/
theorem nextBuildQueue_needs (result : Bool) (d d' : BuildManagerPrivate)
    (hc : d.m_canceling = false) (h : nextBuildQueue result d = .ok d') :
    d.m_progressFutureInterface = true ∧ ∃ current, d.m_currentBuildStep = some current := by
  obtain ⟨queue, running, cur, hash, prev, canceling, progress, maxProgress, pfi, effects⟩ := d
  dsimp only at hc
  subst hc
  cases pfi with
  | false => simp [nextBuildQueue] at h
  | true =>
    cases cur with
    | none => simp [nextBuildQueue] at h
    | some current => exact ⟨rfl, current, rfl⟩

/-- The steps `nextBuildQueue` goes through when it reaches its end and no cancellation
is under way. -/
theorem nextBuildQueue_unfold (result : Bool) (d d' : BuildManagerPrivate)
    (hc : d.m_canceling = false) (h : nextBuildQueue result d = .ok d') :
    ∃ current d1, d.m_progressFutureInterface = true ∧ d.m_currentBuildStep = some current ∧
      decrementActiveBuildSteps current.project { d with m_progress := d.m_progress + 1 } =
        .ok d1 ∧
      (if result = true then nextStep d1 else clearBuildQueue d1) = .ok d' := by
  obtain ⟨hp, current, hcur⟩ := nextBuildQueue_needs result d d' hc h
  rw [nextBuildQueue_eq result d current hc hp hcur] at h
  cases hdec : decrementActiveBuildSteps current.project
      { d with m_progress := d.m_progress + 1 } with
  | error fault =>
    rw [hdec] at h
    cases h
  | ok d1 =>
    rw [hdec] at h
    exact ⟨current, d1, hp, hcur, hdec, h⟩

/-- The body of `cancel` while a build is running. -/
theorem cancel_eq (d : BuildManagerPrivate) (current : BuildStep) (hr : d.m_running = true)
    (hcur : d.m_currentBuildStep = some current) :
    cancel d =
      (decrementActiveBuildSteps current.project
        ({ d with m_canceling := true }.emit .watcherCanceled)).bind
        (fun d2 =>
          if d2.m_progressFutureInterface = true then clearBuildQueue d2
          else .error .nullDereference) := by
  obtain ⟨queue, running, cur, hash, prev, canceling, progress, maxProgress, pfi, effects⟩ := d
  dsimp only at hr hcur
  subst hr hcur
  unfold cancel
  dsimp only [BuildManagerPrivate.emit]
  simp only [if_true]
  split <;> rename_i heq <;> rw [heq] <;> rfl

/-- `cancel` only reaches its end during a build when there is a current step. -/
theorem cancel_needs (d d' : BuildManagerPrivate) (hr : d.m_running = true)
    (h : cancel d = .ok d') : ∃ current, d.m_currentBuildStep = some current := by
  obtain ⟨queue, running, cur, hash, prev, canceling, progress, maxProgress, pfi, effects⟩ := d
  dsimp only at hr
  subst hr
  cases cur with
  | none => simp [cancel, BuildManagerPrivate.emit] at h
  | some current => exact ⟨current, rfl⟩

/-- `cancel` does nothing when no build is running. -/
theorem cancel_idle (d : BuildManagerPrivate) (hr : d.m_running = false) : cancel d = .ok d := by
  unfold cancel
  rw [hr]
  rfl

/-- The steps `cancel` goes through when a build is running and it reaches its end. -/
theorem cancel_unfold (d d' : BuildManagerPrivate) (hr : d.m_running = true)
    (h : cancel d = .ok d') :
    ∃ current d2, d.m_currentBuildStep = some current ∧
      decrementActiveBuildSteps current.project
        ({ d with m_canceling := true }.emit .watcherCanceled) = .ok d2 ∧
      clearBuildQueue d2 = .ok d' := by
  obtain ⟨current, hcur⟩ := cancel_needs d d' hr h
  rw [cancel_eq d current hr hcur] at h
  cases hdec : decrementActiveBuildSteps current.project
      ({ d with m_canceling := true }.emit .watcherCanceled) with
  | error fault =>
    rw [hdec] at h
    cases h
  | ok d2 =>
    rw [hdec] at h
    by_cases hp : d2.m_progressFutureInterface = true
    · refine ⟨current, d2, hcur, hdec, ?_⟩
      simpa only [Except.bind, hp, if_true] using h
    · simp [Except.bind, hp] at h

/-- Under the invariant, the project of the running step and of every queued step has an
entry. -/
theorem Counted_entries (d : BuildManagerPrivate) (h : Counted d) :
    (∀ bs ∈ d.m_buildQueue, findCount d.m_activeBuildSteps bs.project ≠ none) ∧
      (∀ current, d.m_running = true → d.m_currentBuildStep = some current →
        findCount d.m_activeBuildSteps current.project ≠ none) := by
  obtain ⟨hcount, -, -⟩ := h
  constructor
  · intro bs hbs
    apply find_of_activeBuildSteps_pos
    rw [hcount bs.project]
    have hpos : 0 < stepsOf bs.project d.m_buildQueue :=
      (stepsOf_pos_iff _ _).mpr ⟨bs, hbs, rfl⟩
    omega
  · intro current hr hc
    apply find_of_activeBuildSteps_pos
    rw [hcount current.project, runningStepOf_running _ d current hr hc]
    simp only [if_true]
    omega

/-- `nextBuildQueue` keeps the invariant. -/
theorem nextBuildQueue_inv (result : Bool) (d d' : BuildManagerPrivate) (hinv : Inv d)
    (h : nextBuildQueue result d = .ok d') : Inv d' := by
  by_cases hc : d.m_canceling = true
  · unfold nextBuildQueue at h
    rw [if_pos hc] at h
    cases h
    exact hinv
  · have hc2 : d.m_canceling = false := by simpa using hc
    obtain ⟨current, d1, hp, hcur, hdec, hnext⟩ := nextBuildQueue_unfold result d d' hc2 h
    obtain ⟨⟨hcount, hrun, hpf⟩, hidle⟩ := hinv
    have hr : d.m_running = true := hpf ▸ hp
    obtain ⟨hctl, ha1, -, -, -, -⟩ := decrementActiveBuildSteps_spec _ _ _ hdec
    obtain ⟨c1, c2, c3, -, c5, -, -, c8⟩ := control_fields _ _ hctl
    have hact : ∀ q, activeBuildSteps q d1 =
        (stepsOf q d.m_buildQueue : Int) := by
      intro q
      rw [ha1 q]
      have hsame : activeBuildSteps q { d with m_progress := d.m_progress + 1 } =
          activeBuildSteps q d := rfl
      rw [hsame, hcount q, runningStepOf_running q d current hr hcur]
      by_cases hq : q = current.project
      · simp only [hq, if_true]
        push_cast
        ring
      · simp only [hq, if_false]
        push_cast
        ring
    cases result with
    | true =>
      simp only [if_true] at hnext
      by_cases he : d1.m_buildQueue = []
      · obtain ⟨⟨f1, f2, f3, -, -, -, f7⟩, fh, -, -, -⟩ := nextStep_nil d1 d' he hnext
        refine ⟨⟨?_, ?_, ?_⟩, fun _ => f1⟩
        · intro q
          rw [activeBuildSteps_congr q d1 d' fh, hact q, f1, runningStepOf_idle q d' f2]
          have : d.m_buildQueue = [] := c1 ▸ he
          rw [this]
          simp [stepsOf]
        · intro hrun'
          rw [f2] at hrun'
          cases hrun'
        · rw [f7, f2]
      · obtain ⟨bs, rest, hq⟩ := List.exists_cons_of_ne_nil he
        obtain ⟨d'', hd'', ⟨f1, f2, f3, f4, -, -, f7⟩, fh, -, -, -⟩ := nextStep_cons d1 bs rest hq
        rw [hd'', Except.ok.injEq] at hnext
        subst hnext
        have hr1 : d1.m_running = true := c2.trans hr
        refine ⟨⟨?_, ?_, ?_⟩, ?_⟩
        · intro q
          rw [activeBuildSteps_congr q d1 d'' fh, hact q, f1,
            runningStepOf_running q d'' bs (f2.trans hr1) f3]
          have : d.m_buildQueue = bs :: rest := c1 ▸ hq
          rw [this, stepsOf_cons]
          push_cast
          ring
        · intro _
          rw [f3, f4, c5]
          exact ⟨by simp, hc2⟩
        · rw [f7, f2, c8, c2]
          exact hpf
        · intro hfalse
          rw [f2, hr1] at hfalse
          cases hfalse
    | false =>
      simp only [Bool.false_eq_true, if_false] at hnext
      obtain ⟨⟨f1, f2, f3, -, -, -, -, f8⟩, fa, -, -, -⟩ := clearBuildQueue_spec d1 d' hnext
      refine ⟨⟨?_, ?_, ?_⟩, fun _ => f1⟩
      · intro q
        rw [fa q, hact q, f1, runningStepOf_idle q d' f2, c1]
        simp [stepsOf]
      · intro hrun'
        rw [f2] at hrun'
        cases hrun'
      · rw [f8, f2]

/-- `nextBuildQueue` reaches its end whenever a step is running. -/
theorem nextBuildQueue_ok (result : Bool) (d : BuildManagerPrivate) (hinv : Inv d)
    (hr : d.m_running = true) : ∃ d', nextBuildQueue result d = .ok d' := by
  obtain ⟨hcounted, hidle⟩ := hinv
  obtain ⟨hqueue, hcurrent⟩ := Counted_entries d hcounted
  obtain ⟨hcount, hrun, hpf⟩ := hcounted
  obtain ⟨hsome, hcan⟩ := hrun hr
  obtain ⟨current, hcur⟩ := Option.ne_none_iff_exists'.mp hsome
  have hp : d.m_progressFutureInterface = true := hpf.trans hr
  obtain ⟨d1, hd1⟩ := decrementActiveBuildSteps_ok current.project
    { d with m_progress := d.m_progress + 1 } (hcurrent current hr hcur)
  obtain ⟨hctl, -, hkeep, -, -, -⟩ := decrementActiveBuildSteps_spec _ _ _ hd1
  obtain ⟨c1, -, -, -, -, -, -, c8⟩ := control_fields _ _ hctl
  have hp1 : d1.m_progressFutureInterface = true := c8.trans hp
  have hnext : ∃ d', (if result = true then nextStep d1 else clearBuildQueue d1) = .ok d' := by
    cases result with
    | true =>
      simp only [if_true]
      by_cases he : d1.m_buildQueue = []
      · exact nextStep_nil_ok d1 he hp1
      · obtain ⟨bs, rest, hq⟩ := List.exists_cons_of_ne_nil he
        obtain ⟨d', hd', -⟩ := nextStep_cons d1 bs rest hq
        exact ⟨d', hd'⟩
    | false =>
      simp only [Bool.false_eq_true, if_false]
      apply clearBuildQueue_ok d1 hp1
      intro bs hbs
      rw [c1] at hbs
      exact hkeep _ (hqueue bs hbs)
  obtain ⟨d', hd'⟩ := hnext
  refine ⟨d', ?_⟩
  rw [nextBuildQueue_eq result d current hcan hp hcur, hd1]
  exact hd'

/-- What `cancel` does to a running build when it reaches its end. -/
theorem cancel_spec (d d' : BuildManagerPrivate) (hr : d.m_running = true)
    (h : cancel d = .ok d') :
    ∃ current, d.m_currentBuildStep = some current ∧
      (d'.m_buildQueue = [] ∧ d'.m_running = false ∧ d'.m_currentBuildStep = none ∧
        d'.m_canceling = true ∧ d'.m_maxProgress = 0 ∧ d'.m_progressFutureInterface = false) ∧
      (∀ q, activeBuildSteps q d' =
        activeBuildSteps q d - (if q = current.project then 1 else 0) -
          (stepsOf q d.m_buildQueue : Int)) ∧
      runsStarted d' = runsStarted d ∧
      finishedSignals d' = finishedSignals d ++ [false] := by
  obtain ⟨current, d2, hcur, hdec, hclear⟩ := cancel_unfold d d' hr h
  obtain ⟨hctl, ha, -, -, hrs, hfs⟩ := decrementActiveBuildSteps_spec _ _ _ hdec
  obtain ⟨c1, -, -, -, c5, -, -, -⟩ := control_fields _ _ hctl
  obtain ⟨⟨f1, f2, f3, -, f5, -, f7, f8⟩, fa, -, fr, ff⟩ := clearBuildQueue_spec d2 d' hclear
  refine ⟨current, hcur, ⟨f1, f2, f3, f5.trans c5, f7, f8⟩, ?_, ?_, ?_⟩
  · intro q
    rw [fa q, ha q, c1]
    rfl
  · rw [fr, hrs]
    simp [runsStarted, BuildManagerPrivate.emit, List.filterMap_append]
  · rw [ff, hfs]
    simp [finishedSignals, BuildManagerPrivate.emit, List.filterMap_append]

/-- `cancel` keeps the invariant and leaves nothing queued, nothing running and every count
at zero. -/
theorem cancel_inv (d d' : BuildManagerPrivate) (hinv : Inv d) (h : cancel d = .ok d') :
    Inv d' ∧ d'.m_buildQueue = [] ∧ d'.m_running = false ∧ ∀ q, activeBuildSteps q d' = 0 := by
  obtain ⟨⟨hcount, hrun, hpf⟩, hidle⟩ := hinv
  by_cases hr : d.m_running = true
  · obtain ⟨current, hcur, ⟨f1, f2, f3, f4, f5, f6⟩, fa, -, -⟩ := cancel_spec d d' hr h
    have hzero : ∀ q, activeBuildSteps q d' = 0 := by
      intro q
      rw [fa q, hcount q, runningStepOf_running q d current hr hcur]
      by_cases hq : q = current.project
      · simp only [hq, if_true]
        push_cast
        ring
      · simp only [hq, if_false]
        push_cast
        ring
    refine ⟨⟨⟨?_, ?_, ?_⟩, fun _ => f1⟩, f1, f2, hzero⟩
    · intro q
      rw [hzero q, f1, runningStepOf_idle q d' f2]
      simp [stepsOf]
    · intro hrun'
      rw [f2] at hrun'
      cases hrun'
    · rw [f6, f2]
  · have hr2 : d.m_running = false := by simpa using hr
    rw [cancel_idle d hr2, Except.ok.injEq] at h
    subst h
    refine ⟨⟨⟨hcount, hrun, hpf⟩, hidle⟩, hidle hr2, hr2, ?_⟩
    intro q
    rw [hcount q, hidle hr2, runningStepOf_idle q d hr2]
    simp [stepsOf]

/-- `cancel` reaches its end under the invariant. -/
theorem cancel_ok (d : BuildManagerPrivate) (hinv : Inv d) : ∃ d', cancel d = .ok d' := by
  by_cases hr : d.m_running = true
  · obtain ⟨hcounted, -⟩ := hinv
    obtain ⟨hqueue, hcurrent⟩ := Counted_entries d hcounted
    obtain ⟨-, hrun, hpf⟩ := hcounted
    obtain ⟨hsome, -⟩ := hrun hr
    obtain ⟨current, hcur⟩ := Option.ne_none_iff_exists'.mp hsome
    have hp : d.m_progressFutureInterface = true := hpf.trans hr
    obtain ⟨d2, hd2⟩ := decrementActiveBuildSteps_ok current.project
      ({ d with m_canceling := true }.emit .watcherCanceled) (hcurrent current hr hcur)
    obtain ⟨hctl, -, hkeep, -, -, -⟩ := decrementActiveBuildSteps_spec _ _ _ hd2
    obtain ⟨c1, -, -, -, -, -, -, c8⟩ := control_fields _ _ hctl
    have hp2 : d2.m_progressFutureInterface = true := c8.trans hp
    obtain ⟨d', hd'⟩ := clearBuildQueue_ok d2 hp2 (by
      intro bs hbs
      rw [c1] at hbs
      exact hkeep _ (hqueue bs hbs))
    refine ⟨d', ?_⟩
    rw [cancel_eq d current hr hcur, hd2]
    simpa only [Except.bind, hp2, if_true] using hd'
  · have hr2 : d.m_running = false := by simpa using hr
    exact ⟨d, cancel_idle d hr2⟩

/-- Every reachable state satisfies the bookkeeping invariant. -/
theorem Reachable_inv (d : BuildManagerPrivate) (h : Reachable d) : Inv d := by
  induction h with
  | initial cur prog => exact Inv_initial cur prog
  | buildLists init bsls success _ hstep ih =>
    obtain ⟨r, hr, hinv⟩ := buildLists_inv init bsls _ ih
    rw [hr, Except.ok.injEq] at hstep
    subst hstep
    exact hinv
  | appendStep init step _ hstep ih =>
    obtain ⟨r, hr, hinv⟩ := appendStep_inv init step _ ih
    rw [hr, Except.ok.injEq] at hstep
    subst hstep
    exact hinv
  | nextBuildQueue result _ hstep ih => exact nextBuildQueue_inv result _ _ ih hstep
  | cancel _ hstep ih => exact (cancel_inv _ _ ih hstep).1

/-- The per-project `isBuilding` is true exactly when the stored count is not zero. -/
theorem isBuildingProject_iff (q : Project) (d : BuildManagerPrivate) :
    isBuildingProject q d = true ↔ activeBuildSteps q d ≠ 0 := by
  unfold isBuildingProject activeBuildSteps
  cases findCount d.m_activeBuildSteps q with
  | none => simp
  | some count =>
    by_cases hz : count = 0
    · simp [hz]
    · simp [hz]

/-- The running-step term of a project is positive exactly when a step of the project is
running. -/
theorem runningStepOf_pos_iff (q : Project) (d : BuildManagerPrivate) :
    0 < runningStepOf q d ↔
      d.m_running = true ∧ ∃ bs, d.m_currentBuildStep = some bs ∧ bs.project = q := by
  unfold runningStepOf
  cases d.m_currentBuildStep with
  | none => simp
  | some current =>
    show (0 < if d.m_running = true ∧ current.project = q then 1 else 0) ↔ _
    by_cases h : d.m_running = true ∧ current.project = q
    · rw [if_pos h]
      simp [h.1, h.2]
    · rw [if_neg h]
      simp only [lt_self_iff_false, Option.some.injEq, exists_eq_left', false_iff]
      exact h

/-- The general `isBuilding` is false once the queue is empty and nothing runs. -/
theorem isBuilding_idle (d : BuildManagerPrivate) (hq : d.m_buildQueue = [])
    (hr : d.m_running = false) : isBuilding d = false := by
  simp [isBuilding, hq, hr]

/-- When `buildQueueAppend` returns true the steps are at the end of the queue. -/
theorem buildQueueAppend_queue (init : BuildStep → Bool) (steps : List BuildStep)
    (d : BuildManagerPrivate) (h : (buildQueueAppend init steps d).1 = true) :
    (buildQueueAppend init steps d).2.m_buildQueue = d.m_buildQueue ++ steps := by
  rw [buildQueueAppend_eq] at h ⊢
  by_cases hall : steps.all init = true
  · rw [if_pos hall]
    obtain ⟨⟨h1, -⟩, -⟩ := buildQueueAppendLoop_spec steps (buildQueueAppendInit init steps d).2
    rw [h1, buildQueueAppendInit_eq]
  · rw [if_neg hall] at h
    cases h

/-- What `nextBuildQueue` does when the finished step has failed. -/
theorem nextBuildQueue_false_spec (d d' : BuildManagerPrivate) (hc : d.m_canceling = false)
    (h : nextBuildQueue false d = .ok d') :
    d'.m_buildQueue = [] ∧ d'.m_running = false ∧ d'.m_currentBuildStep = none ∧
      d'.m_maxProgress = 0 ∧ runsStarted d' = runsStarted d ∧
      finishedSignals d' = finishedSignals d ++ [false] := by
  obtain ⟨current, d1, -, -, hdec, hnext⟩ := nextBuildQueue_unfold false d d' hc h
  simp only [Bool.false_eq_true, if_false] at hnext
  obtain ⟨-, -, -, -, hrs, hfs⟩ := decrementActiveBuildSteps_spec _ _ _ hdec
  obtain ⟨⟨f1, f2, f3, -, -, -, f7, -⟩, -, -, fr, ff⟩ := clearBuildQueue_spec d1 d' hnext
  refine ⟨f1, f2, f3, f7, ?_, ?_⟩
  · rw [fr, hrs]
    rfl
  · rw [ff, hfs]
    rfl

/-- What `nextBuildQueue` does when the finished step has succeeded and a step is queued. -/
theorem nextBuildQueue_true_cons_spec (d d' : BuildManagerPrivate) (bs : BuildStep)
    (rest : List BuildStep) (hc : d.m_canceling = false) (hq : d.m_buildQueue = bs :: rest)
    (h : nextBuildQueue true d = .ok d') :
    d'.m_currentBuildStep = some bs ∧ d'.m_buildQueue = rest ∧ d'.m_running = d.m_running ∧
      d'.m_maxProgress = d.m_maxProgress ∧ runsStarted d' = runsStarted d ++ [bs] ∧
      finishedSignals d' = finishedSignals d := by
  obtain ⟨current, d1, -, -, hdec, hnext⟩ := nextBuildQueue_unfold true d d' hc h
  simp only [if_true] at hnext
  obtain ⟨hctl, -, -, -, hrs, hfs⟩ := decrementActiveBuildSteps_spec _ _ _ hdec
  obtain ⟨c1, c2, -, -, -, -, c7, -⟩ := control_fields _ _ hctl
  obtain ⟨d'', hd'', ⟨f1, f2, f3, -, -, f6, -⟩, -, -, fr, ff⟩ :=
    nextStep_cons d1 bs rest (c1.trans hq)
  rw [hd'', Except.ok.injEq] at hnext
  subst hnext
  refine ⟨f3, f1, f2.trans c2, f6.trans c7, ?_, ?_⟩
  · rw [fr, hrs]
    rfl
  · rw [ff, hfs]
    rfl

/-- What `nextBuildQueue` does when the finished step has succeeded and the queue is
empty. -/
theorem nextBuildQueue_true_nil_spec (d d' : BuildManagerPrivate) (hc : d.m_canceling = false)
    (hq : d.m_buildQueue = []) (h : nextBuildQueue true d = .ok d') :
    d'.m_buildQueue = [] ∧ d'.m_running = false ∧ d'.m_currentBuildStep = none ∧
      d'.m_maxProgress = 0 ∧ runsStarted d' = runsStarted d ∧
      finishedSignals d' = finishedSignals d ++ [true] := by
  obtain ⟨current, d1, -, -, hdec, hnext⟩ := nextBuildQueue_unfold true d d' hc h
  simp only [if_true] at hnext
  obtain ⟨hctl, -, -, -, hrs, hfs⟩ := decrementActiveBuildSteps_spec _ _ _ hdec
  obtain ⟨c1, -⟩ := control_fields _ _ hctl
  obtain ⟨⟨f1, f2, f3, -, -, f6, -⟩, -, -, fr, ff⟩ := nextStep_nil d1 d' (c1.trans hq) hnext
  refine ⟨f1, f2, f3, f6, ?_, ?_⟩
  · rw [fr, hrs]
    rfl
  · rw [ff, hfs]
    rfl

/-- The sample state `sampleBuilding` is reachable: it is what `buildLists` makes of a
fresh manager. -/
theorem sampleBuilding_reachable : Reachable sampleBuilding :=
  Reachable.buildLists initAll [sampleSteps] true (Reachable.initial none 0) rfl

/-- Witness of C6: with the step at address 11 failing nothing is queued, and with every
step initialising all three steps are. -/
theorem buildQueueAppend_all_or_nothing_witness :
    ((buildQueueAppend initFails11 sampleSteps sampleBuilding).2.m_buildQueue =
          sampleBuilding.m_buildQueue ∧
        (buildQueueAppend initFails11 sampleSteps sampleBuilding).2.m_maxProgress =
          sampleBuilding.m_maxProgress ∧
        (buildQueueAppend initFails11 sampleSteps sampleBuilding).2.m_activeBuildSteps =
          sampleBuilding.m_activeBuildSteps) ∧
      ((buildQueueAppend initAll sampleSteps sampleBuilding).2.m_buildQueue =
          sampleBuilding.m_buildQueue ++ sampleSteps ∧
        (buildQueueAppend initAll sampleSteps sampleBuilding).2.m_maxProgress =
          sampleBuilding.m_maxProgress + sampleSteps.length ∧
        ∀ pro, activeBuildSteps pro (buildQueueAppend initAll sampleSteps sampleBuilding).2 =
          activeBuildSteps pro sampleBuilding + (stepsOf pro sampleSteps : Int)) :=
  ⟨(buildQueueAppend_all_or_nothing initFails11 sampleSteps sampleBuilding).2.2.1 (by decide),
    (buildQueueAppend_all_or_nothing initAll sampleSteps sampleBuilding).2.2.2 (by decide)⟩

/-- C7. `BuildManager::isBuilding()` reports building even when no step is running yet:
in every state it is true exactly when the build queue is non-empty or `m_running` is
true. It is true right after a successful `buildQueueAppend` of a non-empty list; it is
false after the build queue has finished (the last step succeeded), after it has failed
(a step returned false) and after a running build has been cancelled; and in every
reachable state `cancel` returns and leaves it false. -/
theorem isBuilding_reports_queue_or_running (d : BuildManagerPrivate) :
    (isBuilding d = true ↔ d.m_buildQueue ≠ [] ∨ d.m_running = true) ∧
      (∀ init steps, steps ≠ [] → (buildQueueAppend init steps d).1 = true →
        isBuilding (buildQueueAppend init steps d).2 = true) ∧
      (∀ d', d.m_canceling = false → d.m_buildQueue = [] → nextBuildQueue true d = .ok d' →
        isBuilding d' = false) ∧
      (∀ d', d.m_canceling = false → nextBuildQueue false d = .ok d' →
        isBuilding d' = false) ∧
      (∀ d', d.m_running = true → cancel d = .ok d' → isBuilding d' = false) ∧
      (Reachable d → ∃ d', cancel d = .ok d' ∧ isBuilding d' = false) := by
  refine ⟨?_, ?_, ?_, ?_, ?_, ?_⟩
  · unfold isBuilding
    cases d.m_buildQueue with
    | nil => simp
    | cons bs rest => simp
  · intro init steps hne hok
    unfold isBuilding
    rw [buildQueueAppend_queue init steps d hok]
    cases steps with
    | nil => exact absurd rfl hne
    | cons bs rest => simp
  · intro d' hc hq h
    obtain ⟨f1, f2, -⟩ := nextBuildQueue_true_nil_spec d d' hc hq h
    exact isBuilding_idle d' f1 f2
  · intro d' hc h
    obtain ⟨f1, f2, -⟩ := nextBuildQueue_false_spec d d' hc h
    exact isBuilding_idle d' f1 f2
  · intro d' hr h
    obtain ⟨current, -, ⟨f1, f2, -⟩, -⟩ := cancel_spec d d' hr h
    exact isBuilding_idle d' f1 f2
  · intro hreach
    have hinv := Reachable_inv d hreach
    obtain ⟨d', hd'⟩ := cancel_ok d hinv
    obtain ⟨-, f1, f2, -⟩ := cancel_inv d d' hinv hd'
    exact ⟨d', hd', isBuilding_idle d' f1 f2⟩

/-- Witness of C7 on the sample build. -/
theorem isBuilding_reports_queue_or_running_witness :
    isBuilding (buildQueueAppend initAll sampleSteps (BuildManagerPrivate.initial none 0)).2 =
        true ∧
      isBuilding sampleFinished = false ∧ isBuilding sampleFailed = false ∧
      isBuilding sampleCancelled = false ∧
      ∃ d', cancel sampleBuilding = .ok d' ∧ isBuilding d' = false :=
  ⟨(isBuilding_reports_queue_or_running (BuildManagerPrivate.initial none 0)).2.1
      initAll sampleSteps (by decide) (by decide),
    (isBuilding_reports_queue_or_running sampleLastStep).2.2.1 sampleFinished rfl rfl rfl,
    (isBuilding_reports_queue_or_running sampleBuilding).2.2.2.1 sampleFailed rfl rfl,
    (isBuilding_reports_queue_or_running sampleBuilding).2.2.2.2.1 sampleCancelled rfl rfl,
    (isBuilding_reports_queue_or_running sampleBuilding).2.2.2.2.2 sampleBuilding_reachable⟩

/-- C8. Removing a project that is being built cancels the whole queue: in every reachable
state, for a project whose count is positive, `aboutToRemoveProject` returns and leaves the
build queue empty, `m_running` false, `isBuilding()` false and `isBuilding(q)` false for
every project `q`; in every state, for a project with no entry or with count zero,
`aboutToRemoveProject` changes nothing. -/
theorem aboutToRemoveProject_cancels_queue (p : Project) (d : BuildManagerPrivate) :
    (Reachable d → 0 < activeBuildSteps p d →
        ∃ d', aboutToRemoveProject p d = .ok d' ∧ d'.m_buildQueue = [] ∧
          d'.m_running = false ∧ isBuilding d' = false ∧
          ∀ q, isBuildingProject q d' = false) ∧
      (findCount d.m_activeBuildSteps p = none ∨ findCount d.m_activeBuildSteps p = some 0 →
        aboutToRemoveProject p d = .ok d) := by
  constructor
  · intro hreach hpos
    have hinv := Reachable_inv d hreach
    obtain ⟨d', hd'⟩ := cancel_ok d hinv
    obtain ⟨-, f1, f2, hzero⟩ := cancel_inv d d' hinv hd'
    refine ⟨d', ?_, f1, f2, isBuilding_idle d' f1 f2, ?_⟩
    · unfold aboutToRemoveProject
      unfold activeBuildSteps at hpos
      cases hf : findCount d.m_activeBuildSteps p with
      | none => simp [hf] at hpos
      | some count =>
        have hc : count > 0 := by simpa [hf] using hpos
        simp only [hc, if_true]
        exact hd'
    · intro q
      cases hb : isBuildingProject q d' with
      | false => rfl
      | true => exact absurd (hzero q) ((isBuildingProject_iff q d').mp hb)
  · intro h
    unfold aboutToRemoveProject
    rcases h with h | h
    · rw [h]
    · rw [h]
      rfl

/-- Witness of C8: project 2 is being built in `sampleBuilding`, project 3 is unknown. -/
theorem aboutToRemoveProject_cancels_queue_witness :
    (∃ d', aboutToRemoveProject 2 sampleBuilding = .ok d' ∧ d'.m_buildQueue = [] ∧
        d'.m_running = false ∧ isBuilding d' = false ∧
        ∀ q, isBuildingProject q d' = false) ∧
      aboutToRemoveProject 3 sampleBuilding = .ok sampleBuilding :=
  ⟨(aboutToRemoveProject_cancels_queue 2 sampleBuilding).1 sampleBuilding_reachable
      (by decide),
    (aboutToRemoveProject_cancels_queue 3 sampleBuilding).2 (Or.inl rfl)⟩

/-- C9. A failing build step stops the build. When `nextBuildQueue` runs while no
cancellation is under way and the finished step returned false, no further step is started,
the queue is discarded, `m_running` becomes false, `m_maxProgress` becomes 0 and
`buildQueueFinished(false)` is emitted. When the step returned true, the next queued step
becomes the current step and is started, or, if the queue is empty, the build ends with
`buildQueueFinished(true)`. In a reachable state with a running step `nextBuildQueue` does
return, whatever the step returned. -/
theorem nextBuildQueue_failure_stops_build (d : BuildManagerPrivate)
    (hc : d.m_canceling = false) :
    (∀ d', nextBuildQueue false d = .ok d' →
        d'.m_buildQueue = [] ∧ d'.m_running = false ∧ d'.m_currentBuildStep = none ∧
        d'.m_maxProgress = 0 ∧ runsStarted d' = runsStarted d ∧
        finishedSignals d' = finishedSignals d ++ [false]) ∧
      (∀ d' bs rest, d.m_buildQueue = bs :: rest → nextBuildQueue true d = .ok d' →
        d'.m_currentBuildStep = some bs ∧ d'.m_buildQueue = rest ∧
        d'.m_running = d.m_running ∧ d'.m_maxProgress = d.m_maxProgress ∧
        runsStarted d' = runsStarted d ++ [bs] ∧ finishedSignals d' = finishedSignals d) ∧
      (∀ d', d.m_buildQueue = [] → nextBuildQueue true d = .ok d' →
        d'.m_buildQueue = [] ∧ d'.m_running = false ∧ d'.m_currentBuildStep = none ∧
        d'.m_maxProgress = 0 ∧ runsStarted d' = runsStarted d ∧
        finishedSignals d' = finishedSignals d ++ [true]) ∧
      (Reachable d → d.m_running = true →
        ∀ result, ∃ d', nextBuildQueue result d = .ok d') :=
  ⟨fun d' h => nextBuildQueue_false_spec d d' hc h,
    fun d' bs rest hq h => nextBuildQueue_true_cons_spec d d' bs rest hc hq h,
    fun d' hq h => nextBuildQueue_true_nil_spec d d' hc hq h,
    fun hreach hr result => nextBuildQueue_ok result d (Reachable_inv d hreach) hr⟩

/-- Witness of C9 on the sample build: step 10 fails, or succeeds and step 11 starts; the
last step succeeds and the build ends. -/
theorem nextBuildQueue_failure_stops_build_witness :
    (sampleFailed.m_buildQueue = [] ∧ sampleFailed.m_running = false ∧
        sampleFailed.m_currentBuildStep = none ∧ sampleFailed.m_maxProgress = 0 ∧
        runsStarted sampleFailed = runsStarted sampleBuilding ∧
        finishedSignals sampleFailed = finishedSignals sampleBuilding ++ [false]) ∧
      (sampleSecondStep.m_currentBuildStep = some { id := 11, project := 1 } ∧
        sampleSecondStep.m_buildQueue = [{ id := 20, project := 2 }] ∧
        sampleSecondStep.m_running = sampleBuilding.m_running ∧
        sampleSecondStep.m_maxProgress = sampleBuilding.m_maxProgress ∧
        runsStarted sampleSecondStep =
          runsStarted sampleBuilding ++ [{ id := 11, project := 1 }] ∧
        finishedSignals sampleSecondStep = finishedSignals sampleBuilding) ∧
      (sampleFinished.m_buildQueue = [] ∧ sampleFinished.m_running = false ∧
        sampleFinished.m_currentBuildStep = none ∧ sampleFinished.m_maxProgress = 0 ∧
        runsStarted sampleFinished = runsStarted sampleLastStep ∧
        finishedSignals sampleFinished = finishedSignals sampleLastStep ++ [true]) ∧
      ∀ result, ∃ d', nextBuildQueue result sampleBuilding = .ok d' :=
  ⟨(nextBuildQueue_failure_stops_build sampleBuilding rfl).1 sampleFailed rfl,
    (nextBuildQueue_failure_stops_build sampleBuilding rfl).2.1 sampleSecondStep
      { id := 11, project := 1 } [{ id := 20, project := 2 }] rfl rfl,
    (nextBuildQueue_failure_stops_build sampleLastStep rfl).2.2.1 sampleFinished rfl rfl,
    (nextBuildQueue_failure_stops_build sampleBuilding rfl).2.2.2 sampleBuilding_reachable rfl⟩

/-- C10. The counting invariant of `BuildManager`: in every state reachable from a freshly
constructed manager through `buildLists`, `appendStep`, step completion (`nextBuildQueue`)
and `cancel`, for every project the count `m_activeBuildSteps[p]` (0 when absent) is the
number of steps of the project in `m_buildQueue`, plus one if a step of the project is the
currently running step; so `isBuilding(p)` is true exactly when the project has a queued
or a running step. -/
theorem activeBuildSteps_counts_steps (d : BuildManagerPrivate) (h : Reachable d)
    (pro : Project) :
    activeBuildSteps pro d = (stepsOf pro d.m_buildQueue : Int) + runningStepOf pro d ∧
      (isBuildingProject pro d = true ↔
        (∃ bs ∈ d.m_buildQueue, bs.project = pro) ∨
          (d.m_running = true ∧ ∃ bs, d.m_currentBuildStep = some bs ∧ bs.project = pro)) := by
  obtain ⟨⟨hcount, -, -⟩, -⟩ := Reachable_inv d h
  refine ⟨hcount pro, ?_⟩
  rw [isBuildingProject_iff, hcount pro, ← stepsOf_pos_iff, ← runningStepOf_pos_iff]
  omega

/-- Witness of C10 in the reachable state `sampleBuilding`, for project 1. -/
theorem activeBuildSteps_counts_steps_witness :
    Reachable sampleBuilding ∧
      activeBuildSteps 1 sampleBuilding =
        (stepsOf 1 sampleBuilding.m_buildQueue : Int) + runningStepOf 1 sampleBuilding ∧
      (isBuildingProject 1 sampleBuilding = true ↔
        (∃ bs ∈ sampleBuilding.m_buildQueue, bs.project = 1) ∨
          (sampleBuilding.m_running = true ∧
            ∃ bs, sampleBuilding.m_currentBuildStep = some bs ∧ bs.project = 1)) :=
  ⟨sampleBuilding_reachable,
    activeBuildSteps_counts_steps sampleBuilding sampleBuilding_reachable 1⟩

/-- The keys of the hash after a write: the written key is added at the end when it is
new, and the keys are unchanged otherwise. -/
theorem keys_setCount (pro : Project) (value : Int) (hash : List (Project × Int)) :
    (setCount pro value hash).map Prod.fst =
      if pro ∈ hash.map Prod.fst then hash.map Prod.fst else hash.map Prod.fst ++ [pro] := by
  induction hash with
  | nil => simp [setCount]
  | cons entry rest ih =>
    obtain ⟨key, old⟩ := entry
    by_cases hk : key = pro
    · simp [setCount, hk]
    · have hk2 : ¬ pro = key := fun e => hk e.symm
      by_cases hmem : pro ∈ rest.map Prod.fst
      · rw [if_pos hmem] at ih
        have hmem2 : pro ∈ ((key, old) :: rest).map Prod.fst := by
          rw [List.map_cons]
          exact List.mem_cons_of_mem _ hmem
        rw [if_pos hmem2]
        simp only [setCount, hk, if_false, List.map_cons, ih]
      · rw [if_neg hmem] at ih
        have hmem2 : ¬ pro ∈ ((key, old) :: rest).map Prod.fst := by
          rw [List.map_cons, List.mem_cons]
          rintro (h | h)
          · exact hk2 h
          · exact hmem h
        rw [if_neg hmem2]
        simp only [setCount, hk, if_false, List.map_cons, ih, List.cons_append]

/-- A write keeps the keys of the hash pairwise distinct. -/
theorem nodup_setCount (pro : Project) (value : Int) (hash : List (Project × Int))
    (h : (hash.map Prod.fst).Nodup) : ((setCount pro value hash).map Prod.fst).Nodup := by
  rw [keys_setCount]
  by_cases hmem : pro ∈ hash.map Prod.fst
  · rw [if_pos hmem]
    exact h
  · rw [if_neg hmem]
    rw [List.nodup_append]
    refine ⟨h, List.nodup_singleton pro, ?_⟩
    intro a ha hb
    rw [List.mem_singleton] at hb
    subst hb
    exact hmem ha

/-- With pairwise distinct keys, every stored entry is the one `find` returns. -/
theorem findCount_of_mem (pro : Project) (count : Int) (hash : List (Project × Int))
    (hn : (hash.map Prod.fst).Nodup) (hmem : (pro, count) ∈ hash) :
    findCount hash pro = some count := by
  induction hash with
  | nil => cases hmem
  | cons entry rest ih =>
    obtain ⟨key, old⟩ := entry
    rw [List.map_cons, List.nodup_cons] at hn
    obtain ⟨hkey, hrest⟩ := hn
    rw [List.mem_cons] at hmem
    unfold findCount at ih ⊢
    rcases hmem with heq | hin
    · rw [Prod.mk.injEq] at heq
      obtain ⟨rfl, rfl⟩ := heq
      simp [List.lookup]
    · have hne : ¬ pro = key := by
        intro e
        subst e
        exact hkey (List.mem_map.mpr ⟨(pro, count), hin, rfl⟩)
      have hb : (pro == key) = false := by simpa using hne
      simp only [List.lookup, hb]
      exact ih hrest hin

/-- `incrementActiveBuildSteps` keeps the keys of the hash pairwise distinct. -/
theorem incrementActiveBuildSteps_keys (pro : Project) (d : BuildManagerPrivate)
    (h : (d.m_activeBuildSteps.map Prod.fst).Nodup) :
    ((incrementActiveBuildSteps pro d).m_activeBuildSteps.map Prod.fst).Nodup := by
  unfold incrementActiveBuildSteps
  cases findCount d.m_activeBuildSteps pro with
  | none => exact nodup_setCount pro 1 _ h
  | some count =>
    by_cases hz : count = 0
    · simp only [hz, if_true]
      exact nodup_setCount pro _ _ h
    · simp only [hz, if_false]
      exact nodup_setCount pro _ _ h

/-- `decrementActiveBuildSteps` keeps the keys of the hash pairwise distinct. -/
theorem decrementActiveBuildSteps_keys (pro : Project) (d d' : BuildManagerPrivate)
    (hdec : decrementActiveBuildSteps pro d = .ok d')
    (h : (d.m_activeBuildSteps.map Prod.fst).Nodup) :
    (d'.m_activeBuildSteps.map Prod.fst).Nodup := by
  unfold decrementActiveBuildSteps at hdec
  cases hf : findCount d.m_activeBuildSteps pro with
  | none => simp [hf] at hdec
  | some count =>
    simp only [hf] at hdec
    by_cases ho : count = 1
    · simp only [ho, if_true, Except.ok.injEq] at hdec
      subst hdec
      exact nodup_setCount pro _ _ h
    · simp only [ho, if_false, Except.ok.injEq] at hdec
      subst hdec
      exact nodup_setCount pro _ _ h

/-- `decrementActiveBuildSteps` can only stop at its assertion, and does so exactly when
the project has no entry. -/
theorem decrementActiveBuildSteps_error (pro : Project) (d : BuildManagerPrivate) :
    (∀ fault, decrementActiveBuildSteps pro d = .error fault → fault = .assertionFailed) ∧
      (decrementActiveBuildSteps pro d = .error .assertionFailed ↔
        findCount d.m_activeBuildSteps pro = none) := by
  unfold decrementActiveBuildSteps
  cases findCount d.m_activeBuildSteps pro with
  | none =>
    refine ⟨?_, ?_⟩
    · intro fault h
      simp only [Except.error.injEq] at h
      exact h.symm
    · simp
  | some count =>
    by_cases ho : count = 1
    · simp [ho]
    · simp [ho]

/-- The loop of `clearBuildQueue` keeps the keys of the hash pairwise distinct. -/
theorem clearBuildQueueLoop_keys (steps : List BuildStep) :
    ∀ (d d' : BuildManagerPrivate), clearBuildQueueLoop steps d = .ok d' →
      (d.m_activeBuildSteps.map Prod.fst).Nodup → (d'.m_activeBuildSteps.map Prod.fst).Nodup := by
  induction steps with
  | nil =>
    intro d d' h hn
    simp only [clearBuildQueueLoop, Except.ok.injEq] at h
    subst h
    exact hn
  | cons bs rest ih =>
    intro d d' h hn
    unfold clearBuildQueueLoop at h
    cases hdec : decrementActiveBuildSteps bs.project d with
    | error fault => simp [hdec] at h
    | ok d1 =>
      simp only [hdec] at h
      exact ih d1 d' h (decrementActiveBuildSteps_keys _ _ _ hdec hn)

/-- `clearBuildQueue` leaves the hash as its loop has left it. -/
theorem clearBuildQueue_unfold (d d' : BuildManagerPrivate) (h : clearBuildQueue d = .ok d') :
    ∃ d1, clearBuildQueueLoop d.m_buildQueue d = .ok d1 ∧
      d'.m_activeBuildSteps = d1.m_activeBuildSteps := by
  unfold clearBuildQueue at h
  cases hloop : clearBuildQueueLoop d.m_buildQueue d with
  | error fault => simp [hloop] at h
  | ok d1 =>
    simp only [hloop] at h
    by_cases hp : d1.m_progressFutureInterface = true
    · simp only [hp, if_true, Except.ok.injEq] at h
      subst h
      exact ⟨d1, rfl, rfl⟩
    · simp [hp] at h

/-- `clearBuildQueue` keeps the keys of the hash pairwise distinct. -/
theorem clearBuildQueue_keys (d d' : BuildManagerPrivate) (h : clearBuildQueue d = .ok d')
    (hn : (d.m_activeBuildSteps.map Prod.fst).Nodup) :
    (d'.m_activeBuildSteps.map Prod.fst).Nodup := by
  obtain ⟨d1, hloop, hhash⟩ := clearBuildQueue_unfold d d' h
  rw [hhash]
  exact clearBuildQueueLoop_keys _ d d1 hloop hn

/-- `nextStep` does not touch the hash. -/
theorem nextStep_hash (d d' : BuildManagerPrivate) (h : nextStep d = .ok d') :
    d'.m_activeBuildSteps = d.m_activeBuildSteps := by
  by_cases he : d.m_buildQueue = []
  · exact (nextStep_nil d d' he h).2.1
  · obtain ⟨bs, rest, hq⟩ := List.exists_cons_of_ne_nil he
    obtain ⟨d'', hd'', -, fh, -⟩ := nextStep_cons d bs rest hq
    rw [hd'', Except.ok.injEq] at h
    subst h
    exact fh

/-- `nextStep` can only stop at a null pointer. -/
theorem nextStep_error (d : BuildManagerPrivate) (fault : Fault)
    (h : nextStep d = .error fault) : fault = .nullDereference := by
  by_cases he : d.m_buildQueue = []
  · unfold nextStep at h
    rw [he] at h
    by_cases hp : d.m_progressFutureInterface = true
    · simp [hp] at h
    · simp only [hp] at h
      simp only [Bool.false_eq_true, if_false, Except.error.injEq] at h
      exact h.symm
  · obtain ⟨bs, rest, hq⟩ := List.exists_cons_of_ne_nil he
    obtain ⟨d'', hd'', -⟩ := nextStep_cons d bs rest hq
    rw [hd''] at h
    cases h

/-- What `startBuildQueue` can do: it leaves the hash alone, and it can only stop at a
null pointer. -/
theorem startBuildQueue_hash (d : BuildManagerPrivate) :
    (∀ d', startBuildQueue d = .ok d' → d'.m_activeBuildSteps = d.m_activeBuildSteps) ∧
      (∀ fault, startBuildQueue d = .error fault → fault = .nullDereference) := by
  unfold startBuildQueue
  by_cases he : d.m_buildQueue.isEmpty = true
  · rw [if_pos he]
    refine ⟨?_, ?_⟩
    · intro d' h
      rw [Except.ok.injEq] at h
      subst h
      rfl
    · intro fault h
      cases h
  · rw [if_neg he]
    by_cases hr : (!d.m_running) = true
    · rw [if_pos hr]
      refine ⟨?_, ?_⟩
      · intro d' h
        exact (nextStep_hash _ d' h).trans rfl
      · intro fault h
        exact nextStep_error _ fault h
    · rw [if_neg hr]
      by_cases hp : d.m_progressFutureInterface = true
      · rw [if_pos hp]
        refine ⟨?_, ?_⟩
        · intro d' h
          rw [Except.ok.injEq] at h
          subst h
          rfl
        · intro fault h
          cases h
      · rw [if_neg hp]
        refine ⟨?_, ?_⟩
        · intro d' h
          cases h
        · intro fault h
          rw [Except.error.injEq] at h
          exact h.symm

/-- The last loop of `buildQueueAppend` keeps the keys of the hash pairwise distinct. -/
theorem buildQueueAppendLoop_keys (steps : List BuildStep) :
    ∀ d : BuildManagerPrivate, (d.m_activeBuildSteps.map Prod.fst).Nodup →
      ((buildQueueAppendLoop steps d).m_activeBuildSteps.map Prod.fst).Nodup := by
  induction steps with
  | nil => intro d hn; exact hn
  | cons bs rest ih =>
    intro d hn
    unfold buildQueueAppendLoop
    exact ih _ (incrementActiveBuildSteps_keys bs.project _ hn)

/-- `buildQueueAppend` keeps the keys of the hash pairwise distinct. -/
theorem buildQueueAppend_keys (init : BuildStep → Bool) (steps : List BuildStep)
    (d : BuildManagerPrivate) (hn : (d.m_activeBuildSteps.map Prod.fst).Nodup) :
    ((buildQueueAppend init steps d).2.m_activeBuildSteps.map Prod.fst).Nodup := by
  rw [buildQueueAppend_eq]
  have hinit : (buildQueueAppendInit init steps d).2.m_activeBuildSteps =
      d.m_activeBuildSteps := by
    rw [buildQueueAppendInit_eq]
  by_cases hall : steps.all init = true
  · rw [if_pos hall]
    exact buildQueueAppendLoop_keys steps _ (hinit ▸ hn)
  · rw [if_neg hall]
    exact hinit ▸ hn

/-- `buildLists` keeps the keys pairwise distinct and can only stop at a null pointer. -/
theorem buildLists_keys (init : BuildStep → Bool) (bsls : List (List BuildStep))
    (d : BuildManagerPrivate) :
    (∀ r, buildLists init bsls d = .ok r → (d.m_activeBuildSteps.map Prod.fst).Nodup →
        (r.2.m_activeBuildSteps.map Prod.fst).Nodup) ∧
      (∀ fault, buildLists init bsls d = .error fault → fault = .nullDereference) := by
  have hk := buildQueueAppend_keys init bsls.flatten d
  unfold buildLists
  cases hb : buildQueueAppend init bsls.flatten d with
  | mk success d1 =>
    rw [hb] at hk
    cases success with
    | false =>
      refine ⟨?_, ?_⟩
      · intro r h hn
        simp only [Except.ok.injEq] at h
        subst h
        exact hk hn
      · intro fault h
        cases h
    | true =>
      obtain ⟨hs1, hs2⟩ := startBuildQueue_hash d1
      cases hs : startBuildQueue d1 with
      | error fault2 =>
        refine ⟨?_, ?_⟩
        · intro r h
          simp [hs] at h
        · intro fault h
          simp only [hs, Except.error.injEq] at h
          subst h
          exact hs2 fault2 hs
      | ok d2 =>
        refine ⟨?_, ?_⟩
        · intro r h hn
          simp only [hs, Except.ok.injEq] at h
          subst h
          show (d2.m_activeBuildSteps.map Prod.fst).Nodup
          rw [hs1 d2 hs]
          exact hk hn
        · intro fault h
          simp [hs] at h

/-- `appendStep` keeps the keys pairwise distinct and can only stop at a null pointer. -/
theorem appendStep_keys (init : BuildStep → Bool) (step : BuildStep)
    (d : BuildManagerPrivate) :
    (∀ d', appendStep init step d = .ok d' → (d.m_activeBuildSteps.map Prod.fst).Nodup →
        (d'.m_activeBuildSteps.map Prod.fst).Nodup) ∧
      (∀ fault, appendStep init step d = .error fault → fault = .nullDereference) := by
  have hk := buildQueueAppend_keys init [step] d
  unfold appendStep
  cases hb : buildQueueAppend init [step] d with
  | mk success d1 =>
    rw [hb] at hk
    cases success with
    | false =>
      refine ⟨?_, ?_⟩
      · intro d' h hn
        simp only [Except.ok.injEq] at h
        subst h
        exact hk hn
      · intro fault h
        cases h
    | true =>
      obtain ⟨hs1, hs2⟩ := startBuildQueue_hash d1
      refine ⟨?_, ?_⟩
      · intro d' h hn
        rw [hs1 d' h]
        exact hk hn
      · intro fault h
        exact hs2 fault h

/-- `nextBuildQueue` keeps the keys of the hash pairwise distinct. -/
theorem nextBuildQueue_keys (result : Bool) (d d' : BuildManagerPrivate)
    (h : nextBuildQueue result d = .ok d')
    (hn : (d.m_activeBuildSteps.map Prod.fst).Nodup) :
    (d'.m_activeBuildSteps.map Prod.fst).Nodup := by
  by_cases hc : d.m_canceling = true
  · unfold nextBuildQueue at h
    rw [if_pos hc] at h
    cases h
    exact hn
  · have hc2 : d.m_canceling = false := by simpa using hc
    obtain ⟨current, d1, -, -, hdec, hnext⟩ := nextBuildQueue_unfold result d d' hc2 h
    have hn1 := decrementActiveBuildSteps_keys _ _ _ hdec hn
    cases result with
    | true =>
      simp only [if_true] at hnext
      rw [nextStep_hash d1 d' hnext]
      exact hn1
    | false =>
      simp only [Bool.false_eq_true, if_false] at hnext
      exact clearBuildQueue_keys d1 d' hnext hn1

/-- `cancel` keeps the keys of the hash pairwise distinct. -/
theorem cancel_keys (d d' : BuildManagerPrivate) (h : cancel d = .ok d')
    (hn : (d.m_activeBuildSteps.map Prod.fst).Nodup) :
    (d'.m_activeBuildSteps.map Prod.fst).Nodup := by
  by_cases hr : d.m_running = true
  · obtain ⟨current, d2, -, hdec, hclear⟩ := cancel_unfold d d' hr h
    exact clearBuildQueue_keys d2 d' hclear (decrementActiveBuildSteps_keys _ _ _ hdec hn)
  · have hr2 : d.m_running = false := by simpa using hr
    rw [cancel_idle d hr2, Except.ok.injEq] at h
    subst h
    exact hn

/-- In every reachable state the hash has one entry per project. -/
theorem Reachable_keys (d : BuildManagerPrivate) (h : Reachable d) :
    (d.m_activeBuildSteps.map Prod.fst).Nodup := by
  induction h with
  | initial cur prog => exact List.nodup_nil
  | buildLists init bsls success _ hstep ih => exact (buildLists_keys init bsls _).1 _ hstep ih
  | appendStep init step _ hstep ih => exact (appendStep_keys init step _).1 _ hstep ih
  | nextBuildQueue result _ hstep ih => exact nextBuildQueue_keys result _ _ hstep ih
  | cancel _ hstep ih => exact cancel_keys _ _ hstep ih

/-- A call for a project whose count is at least 1 finds an entry with that count. -/
theorem decrementCall_positive (pro : Project) (d : BuildManagerPrivate)
    (h : 1 ≤ activeBuildSteps pro d) : (decrementCall pro d).hasPositiveEntry = true := by
  unfold activeBuildSteps at h
  unfold decrementCall DecrementCall.hasPositiveEntry
  cases hf : findCount d.m_activeBuildSteps pro with
  | none => simp [hf] at h
  | some count =>
    have hc : 1 ≤ count := by simpa [hf] using h
    simp [hc]

/-- When every project has at least as many counted steps as it has steps in the list, each
call the loop of `clearBuildQueue` makes finds an entry with count at least 1. -/
theorem clearBuildQueueLoopCalls_positive (steps : List BuildStep) :
    ∀ d : BuildManagerPrivate, (∀ q, (stepsOf q steps : Int) ≤ activeBuildSteps q d) →
      ∀ c ∈ clearBuildQueueLoopCalls steps d, c.hasPositiveEntry = true := by
  induction steps with
  | nil =>
    intro d _ c hc
    simp [clearBuildQueueLoopCalls] at hc
  | cons bs rest ih =>
    intro d hle c hc
    have hone : 1 ≤ activeBuildSteps bs.project d := by
      have h1 := hle bs.project
      rw [stepsOf_cons] at h1
      simp only [if_true] at h1
      push_cast at h1
      omega
    unfold clearBuildQueueLoopCalls at hc
    rw [List.mem_cons] at hc
    rcases hc with rfl | hc
    · exact decrementCall_positive bs.project d hone
    · cases hdec : decrementActiveBuildSteps bs.project d with
      | error fault => simp [hdec] at hc
      | ok d1 =>
        simp only [hdec] at hc
        obtain ⟨-, ha, -⟩ := decrementActiveBuildSteps_spec _ _ _ hdec
        refine ih d1 ?_ c hc
        intro q
        have h1 := hle q
        rw [stepsOf_cons] at h1
        rw [ha q]
        by_cases hq : q = bs.project
        · simp only [hq, if_true] at h1 ⊢
          push_cast at h1
          omega
        · simp only [hq, if_false] at h1 ⊢
          push_cast at h1
          omega

/-- The calls `cancel` makes while a build is running. -/
theorem cancelCalls_eq (d : BuildManagerPrivate) (current : BuildStep)
    (hr : d.m_running = true) (hcur : d.m_currentBuildStep = some current) :
    cancelCalls d =
      decrementCall current.project ({ d with m_canceling := true }.emit .watcherCanceled) ::
        match decrementActiveBuildSteps current.project
            ({ d with m_canceling := true }.emit .watcherCanceled) with
        | .error _ => []
        | .ok d2 => if d2.m_progressFutureInterface = true then clearBuildQueueCalls d2 else [] := by
  obtain ⟨queue, running, cur, hash, prev, canceling, progress, maxProgress, pfi, effects⟩ := d
  dsimp only at hr hcur
  subst hr hcur
  unfold cancelCalls
  dsimp only [BuildManagerPrivate.emit]
  simp only [if_true]

/-- `cancel` makes no call when no build is running. -/
theorem cancelCalls_idle (d : BuildManagerPrivate) (hr : d.m_running = false) :
    cancelCalls d = [] := by
  unfold cancelCalls
  rw [hr]
  rfl

/-- The calls `nextBuildQueue` makes once its three guards have been passed. -/
theorem nextBuildQueueCalls_eq (result : Bool) (d : BuildManagerPrivate) (current : BuildStep)
    (hc : d.m_canceling = false) (hp : d.m_progressFutureInterface = true)
    (hcur : d.m_currentBuildStep = some current) :
    nextBuildQueueCalls result d =
      decrementCall current.project { d with m_progress := d.m_progress + 1 } ::
        match decrementActiveBuildSteps current.project
            { d with m_progress := d.m_progress + 1 } with
        | .error _ => []
        | .ok d1 => if result = true then [] else clearBuildQueueCalls d1 := by
  obtain ⟨queue, running, cur, hash, prev, canceling, progress, maxProgress, pfi, effects⟩ := d
  dsimp only at hc hp hcur
  subst hc hp hcur
  unfold nextBuildQueueCalls
  dsimp only
  simp only [Bool.false_eq_true, if_false, if_true]

/-- `nextBuildQueue` makes no call, and does not reach the assertion, when one of its
guards stops it. -/
theorem nextBuildQueue_guarded (result : Bool) (d : BuildManagerPrivate)
    (h : d.m_canceling = true ∨ d.m_progressFutureInterface = false ∨
      d.m_currentBuildStep = none) :
    nextBuildQueueCalls result d = [] ∧ nextBuildQueue result d ≠ .error .assertionFailed := by
  obtain ⟨queue, running, cur, hash, prev, canceling, progress, maxProgress, pfi, effects⟩ := d
  dsimp only at h
  cases canceling with
  | true => simp [nextBuildQueueCalls, nextBuildQueue]
  | false =>
    cases pfi with
    | false => simp [nextBuildQueueCalls, nextBuildQueue]
    | true =>
      cases cur with
      | none => simp [nextBuildQueueCalls, nextBuildQueue]
      | some current => simp at h

/-- `cancel` makes no call, and does not reach the assertion, when nothing is running or
there is no current step. -/
theorem cancel_guarded (d : BuildManagerPrivate)
    (h : d.m_running = false ∨ d.m_currentBuildStep = none) :
    cancelCalls d = [] ∧ cancel d ≠ .error .assertionFailed := by
  obtain ⟨queue, running, cur, hash, prev, canceling, progress, maxProgress, pfi, effects⟩ := d
  dsimp only at h
  cases running with
  | false => simp [cancelCalls, cancel]
  | true =>
    cases cur with
    | none => simp [cancelCalls, cancel, BuildManagerPrivate.emit]
    | some current => simp at h

/-- While a step runs, the call for the current step's project finds a count of at least
1, and after it every count is the number of queued steps of the project. `d0` is the state
the call is made in: it has the hash of `d`. -/
theorem Counted_current_decrement (d d0 : BuildManagerPrivate) (current : BuildStep)
    (hcounted : Counted d) (hr : d.m_running = true)
    (hcur : d.m_currentBuildStep = some current)
    (hhash : d0.m_activeBuildSteps = d.m_activeBuildSteps) :
    1 ≤ activeBuildSteps current.project d0 ∧
      ∀ d1, decrementActiveBuildSteps current.project d0 = .ok d1 →
        ∀ q, activeBuildSteps q d1 = (stepsOf q d.m_buildQueue : Int) := by
  obtain ⟨hcount, -, -⟩ := hcounted
  have hsame : ∀ q, activeBuildSteps q d0 = activeBuildSteps q d :=
    fun q => activeBuildSteps_congr q d d0 hhash
  constructor
  · rw [hsame, hcount current.project, runningStepOf_running _ d current hr hcur]
    simp only [if_true]
    omega
  · intro d1 hdec q
    obtain ⟨-, ha, -⟩ := decrementActiveBuildSteps_spec _ _ _ hdec
    rw [ha q, hsame q, hcount q, runningStepOf_running q d current hr hcur]
    by_cases hq : q = current.project
    · simp only [hq, if_true]
      push_cast
      ring
    · simp only [hq, if_false]
      push_cast
      ring

/-- Under the invariant every call `cancel` makes finds a count of at least 1. -/
theorem cancelCalls_positive (d : BuildManagerPrivate) (hinv : Inv d) :
    ∀ c ∈ cancelCalls d, c.hasPositiveEntry = true := by
  intro c hc
  obtain ⟨hcounted, -⟩ := hinv
  by_cases hr : d.m_running = true
  · obtain ⟨hsome, -⟩ := hcounted.2.1 hr
    obtain ⟨current, hcur⟩ := Option.ne_none_iff_exists'.mp hsome
    obtain ⟨hone, hafter⟩ := Counted_current_decrement d
      ({ d with m_canceling := true }.emit .watcherCanceled) current hcounted hr hcur rfl
    rw [cancelCalls_eq d current hr hcur, List.mem_cons] at hc
    rcases hc with rfl | hc
    · exact decrementCall_positive _ _ hone
    · cases hdec : decrementActiveBuildSteps current.project
          ({ d with m_canceling := true }.emit .watcherCanceled) with
      | error fault => simp [hdec] at hc
      | ok d2 =>
        simp only [hdec] at hc
        obtain ⟨hctl, -⟩ := decrementActiveBuildSteps_spec _ _ _ hdec
        obtain ⟨c1, -⟩ := control_fields _ _ hctl
        by_cases hp : d2.m_progressFutureInterface = true
        · rw [if_pos hp] at hc
          refine clearBuildQueueLoopCalls_positive d2.m_buildQueue d2 ?_ c hc
          intro q
          exact le_of_eq (by rw [hafter d2 hdec q, c1]; rfl)
        · rw [if_neg hp] at hc
          cases hc
  · have hr2 : d.m_running = false := by simpa using hr
    rw [cancelCalls_idle d hr2] at hc
    cases hc

/-- Under the invariant every call `nextBuildQueue` makes finds a count of at least 1. -/
theorem nextBuildQueueCalls_positive (result : Bool) (d : BuildManagerPrivate) (hinv : Inv d) :
    ∀ c ∈ nextBuildQueueCalls result d, c.hasPositiveEntry = true := by
  intro c hc
  obtain ⟨hcounted, -⟩ := hinv
  by_cases hguard : d.m_canceling = true ∨ d.m_progressFutureInterface = false ∨
      d.m_currentBuildStep = none
  · rw [(nextBuildQueue_guarded result d hguard).1] at hc
    cases hc
  · rw [not_or, not_or] at hguard
    obtain ⟨hc1, hp1, hcur1⟩ := hguard
    have hcan : d.m_canceling = false := by simpa using hc1
    have hp : d.m_progressFutureInterface = true := by simpa using hp1
    obtain ⟨current, hcur⟩ := Option.ne_none_iff_exists'.mp hcur1
    have hr : d.m_running = true := hcounted.2.2 ▸ hp
    obtain ⟨hone, hafter⟩ := Counted_current_decrement d
      { d with m_progress := d.m_progress + 1 } current hcounted hr hcur rfl
    rw [nextBuildQueueCalls_eq result d current hcan hp hcur, List.mem_cons] at hc
    rcases hc with rfl | hc
    · exact decrementCall_positive _ _ hone
    · cases hdec : decrementActiveBuildSteps current.project
          { d with m_progress := d.m_progress + 1 } with
      | error fault => simp [hdec] at hc
      | ok d1 =>
        simp only [hdec] at hc
        obtain ⟨hctl, -⟩ := decrementActiveBuildSteps_spec _ _ _ hdec
        obtain ⟨c1, -⟩ := control_fields _ _ hctl
        by_cases hres : result = true
        · rw [if_pos hres] at hc
          cases hc
        · rw [if_neg hres] at hc
          refine clearBuildQueueLoopCalls_positive d1.m_buildQueue d1 ?_ c hc
          intro q
          exact le_of_eq (by rw [hafter d1 hdec q, c1])

/-- Under the invariant `nextBuildQueue` never stops at the assertion. -/
theorem nextBuildQueue_no_assert (result : Bool) (d : BuildManagerPrivate) (hinv : Inv d) :
    nextBuildQueue result d ≠ .error .assertionFailed := by
  by_cases hguard : d.m_canceling = true ∨ d.m_progressFutureInterface = false ∨
      d.m_currentBuildStep = none
  · exact (nextBuildQueue_guarded result d hguard).2
  · rw [not_or, not_or] at hguard
    obtain ⟨-, hp1, -⟩ := hguard
    have hp : d.m_progressFutureInterface = true := by simpa using hp1
    have hr : d.m_running = true := hinv.1.2.2 ▸ hp
    obtain ⟨d', hd'⟩ := nextBuildQueue_ok result d hinv hr
    rw [hd']
    intro h
    cases h

/-- Under the invariant no operation stops at the assertion of
`decrementActiveBuildSteps`. -/
theorem runOperation_no_assert (op : Operation) (d : BuildManagerPrivate) (hinv : Inv d) :
    runOperation op d ≠ .error .assertionFailed := by
  cases op with
  | buildLists init bsls =>
    obtain ⟨r, hr, -⟩ := buildLists_inv init bsls d hinv
    simp only [runOperation, hr]
    intro h
    cases h
  | appendStep init step =>
    obtain ⟨d', hd', -⟩ := appendStep_inv init step d hinv
    simp only [runOperation, hd']
    intro h
    cases h
  | nextBuildQueue result => exact nextBuildQueue_no_assert result d hinv
  | cancel =>
    obtain ⟨d', hd'⟩ := cancel_ok d hinv
    simp only [runOperation, hd']
    intro h
    cases h

/-- Under the invariant every call of `decrementActiveBuildSteps` an operation makes finds
a count of at least 1. -/
theorem decrementCalls_positive (op : Operation) (d : BuildManagerPrivate) (hinv : Inv d) :
    ∀ c ∈ decrementCalls op d, c.hasPositiveEntry = true := by
  cases op with
  | buildLists init bsls =>
    intro c hc
    cases hc
  | appendStep init step =>
    intro c hc
    cases hc
  | nextBuildQueue result => exact nextBuildQueueCalls_positive result d hinv
  | cancel => exact cancelCalls_positive d hinv

/-- Under the invariant, with one entry per project, no stored count is negative. -/
theorem stored_counts_nonneg (d : BuildManagerPrivate) (hinv : Inv d)
    (hkeys : (d.m_activeBuildSteps.map Prod.fst).Nodup) :
    ∀ entry ∈ d.m_activeBuildSteps, 0 ≤ entry.2 := by
  intro entry hmem
  obtain ⟨pro, count⟩ := entry
  have hfind := findCount_of_mem pro count _ hkeys hmem
  have hact : activeBuildSteps pro d = count := by
    unfold activeBuildSteps
    rw [hfind]
    rfl
  have hcount := hinv.1.1 pro
  rw [hact] at hcount
  show 0 ≤ count
  omega

/-- A call that succeeds has found an entry. -/
theorem decrementCall_found_of_ok (pro : Project) (d d1 : BuildManagerPrivate)
    (h : decrementActiveBuildSteps pro d = .ok d1) : (decrementCall pro d).found ≠ none := by
  intro hnone
  have herr := (decrementActiveBuildSteps_error pro d).2.mpr hnone
  rw [h] at herr
  cases herr

/-- In every state, the loop of `clearBuildQueue` can only stop at the assertion, and it
does so exactly when one of the calls it makes finds no entry. -/
theorem clearBuildQueueLoop_assert_iff (steps : List BuildStep) :
    ∀ d : BuildManagerPrivate,
      (∀ fault, clearBuildQueueLoop steps d = .error fault → fault = .assertionFailed) ∧
        (clearBuildQueueLoop steps d = .error .assertionFailed ↔
          ∃ c ∈ clearBuildQueueLoopCalls steps d, c.found = none) := by
  induction steps with
  | nil =>
    intro d
    simp [clearBuildQueueLoop, clearBuildQueueLoopCalls]
  | cons bs rest ih =>
    intro d
    unfold clearBuildQueueLoop clearBuildQueueLoopCalls
    cases hdec : decrementActiveBuildSteps bs.project d with
    | error fault =>
      have hf := (decrementActiveBuildSteps_error bs.project d).1 fault hdec
      subst hf
      have hnone := (decrementActiveBuildSteps_error bs.project d).2.mp hdec
      refine ⟨?_, ?_⟩
      · intro fault h
        simp only [Except.error.injEq] at h
        exact h.symm
      · simp only [List.mem_singleton, exists_eq_left, true_iff]
        exact hnone
    | ok d1 =>
      have hfound := decrementCall_found_of_ok _ _ _ hdec
      obtain ⟨ih1, ih2⟩ := ih d1
      refine ⟨ih1, ?_⟩
      simp only [List.mem_cons, exists_eq_or_imp, hfound, false_or]
      exact ih2

/-- In every state, `clearBuildQueue` stops at the assertion exactly when one of the calls
it makes finds no entry. -/
theorem clearBuildQueue_assert_iff (d : BuildManagerPrivate) :
    clearBuildQueue d = .error .assertionFailed ↔
      ∃ c ∈ clearBuildQueueCalls d, c.found = none := by
  obtain ⟨h1, h2⟩ := clearBuildQueueLoop_assert_iff d.m_buildQueue d
  unfold clearBuildQueue clearBuildQueueCalls
  rw [← h2]
  cases hloop : clearBuildQueueLoop d.m_buildQueue d with
  | error fault =>
    have hf := h1 fault hloop
    subst hf
    simp
  | ok d1 =>
    by_cases hp : d1.m_progressFutureInterface = true
    · simp [hp]
    · simp [hp]

/-- In every state, `cancel` stops at the assertion exactly when one of the calls it makes
finds no entry. -/
theorem cancel_assert_iff (d : BuildManagerPrivate) :
    cancel d = .error .assertionFailed ↔ ∃ c ∈ cancelCalls d, c.found = none := by
  by_cases hguard : d.m_running = false ∨ d.m_currentBuildStep = none
  · obtain ⟨hcalls, hno⟩ := cancel_guarded d hguard
    rw [hcalls]
    simp only [List.not_mem_nil, false_and, exists_false, iff_false]
    exact hno
  · rw [not_or] at hguard
    obtain ⟨hr1, hcur1⟩ := hguard
    have hr : d.m_running = true := by simpa using hr1
    obtain ⟨current, hcur⟩ := Option.ne_none_iff_exists'.mp hcur1
    rw [cancel_eq d current hr hcur, cancelCalls_eq d current hr hcur]
    cases hdec : decrementActiveBuildSteps current.project
        ({ d with m_canceling := true }.emit .watcherCanceled) with
    | error fault =>
      have hf := (decrementActiveBuildSteps_error _ _).1 fault hdec
      subst hf
      have hnone := (decrementActiveBuildSteps_error _ _).2.mp hdec
      simp only [Except.bind, List.mem_singleton, exists_eq_left, true_iff]
      exact hnone
    | ok d2 =>
      have hfound := decrementCall_found_of_ok _ _ _ hdec
      simp only [Except.bind, List.mem_cons, exists_eq_or_imp, hfound, false_or]
      by_cases hp : d2.m_progressFutureInterface = true
      · rw [if_pos hp, if_pos hp]
        exact clearBuildQueue_assert_iff d2
      · rw [if_neg hp, if_neg hp]
        simp

/-- In every state, `nextBuildQueue` stops at the assertion exactly when one of the calls
it makes finds no entry. -/
theorem nextBuildQueue_assert_iff (result : Bool) (d : BuildManagerPrivate) :
    nextBuildQueue result d = .error .assertionFailed ↔
      ∃ c ∈ nextBuildQueueCalls result d, c.found = none := by
  by_cases hguard : d.m_canceling = true ∨ d.m_progressFutureInterface = false ∨
      d.m_currentBuildStep = none
  · obtain ⟨hcalls, hno⟩ := nextBuildQueue_guarded result d hguard
    rw [hcalls]
    simp only [List.not_mem_nil, false_and, exists_false, iff_false]
    exact hno
  · rw [not_or, not_or] at hguard
    obtain ⟨hc1, hp1, hcur1⟩ := hguard
    have hcan : d.m_canceling = false := by simpa using hc1
    have hp : d.m_progressFutureInterface = true := by simpa using hp1
    obtain ⟨current, hcur⟩ := Option.ne_none_iff_exists'.mp hcur1
    rw [nextBuildQueue_eq result d current hcan hp hcur,
      nextBuildQueueCalls_eq result d current hcan hp hcur]
    cases hdec : decrementActiveBuildSteps current.project
        { d with m_progress := d.m_progress + 1 } with
    | error fault =>
      have hf := (decrementActiveBuildSteps_error _ _).1 fault hdec
      subst hf
      have hnone := (decrementActiveBuildSteps_error _ _).2.mp hdec
      simp only [Except.bind, List.mem_singleton, exists_eq_left, true_iff]
      exact hnone
    | ok d1 =>
      have hfound := decrementCall_found_of_ok _ _ _ hdec
      simp only [Except.bind, List.mem_cons, exists_eq_or_imp, hfound, false_or]
      by_cases hres : result = true
      · rw [if_pos hres, if_pos hres]
        simp only [List.not_mem_nil, false_and, exists_false, iff_false]
        intro h
        have := nextStep_error d1 _ h
        cases this
      · rw [if_neg hres, if_neg hres]
        exact clearBuildQueue_assert_iff d1

/-- In every state, reachable or not, an operation stops at the assertion of
`decrementActiveBuildSteps` exactly when one of the calls recorded for it finds no entry:
the recorded calls are the calls the operation makes. -/
theorem runOperation_assert_iff (op : Operation) (d : BuildManagerPrivate) :
    runOperation op d = .error .assertionFailed ↔
      ∃ c ∈ decrementCalls op d, c.found = none := by
  cases op with
  | buildLists init bsls =>
    simp only [decrementCalls, List.not_mem_nil, false_and, exists_false, iff_false]
    intro h
    unfold runOperation at h
    cases hb : buildLists init bsls d with
    | error fault =>
      have hf := (buildLists_keys init bsls d).2 fault hb
      subst hf
      simp [hb] at h
    | ok r => simp [hb] at h
  | appendStep init step =>
    simp only [decrementCalls, List.not_mem_nil, false_and, exists_false, iff_false]
    intro h
    have hf := (appendStep_keys init step d).2 _ h
    cases hf
  | nextBuildQueue result => exact nextBuildQueue_assert_iff result d
  | cancel => exact cancel_assert_iff d

/-- What `hasPositiveEntry` says of a call: it has found an entry with count at least 1. -/
theorem hasPositiveEntry_iff (c : DecrementCall) :
    c.hasPositiveEntry = true ↔ ∃ count, c.found = some count ∧ 1 ≤ count := by
  unfold DecrementCall.hasPositiveEntry
  cases c.found with
  | none => simp
  | some count => simp

/-- The assertion is a live branch of the embedding: in a state that is not reachable
(a step runs but the hash is empty), completing the step stops at it. -/
theorem assertion_fires_outside_invariant :
    runOperation (.nextBuildQueue true) { sampleBuilding with m_activeBuildSteps := [] } =
        .error .assertionFailed ∧
      decrementCalls (.nextBuildQueue true) { sampleBuilding with m_activeBuildSteps := [] } =
        [{ pro := 1, found := none }] :=
  ⟨rfl, by decide⟩

/-- C11. The assertion in `decrementActiveBuildSteps` is never violated and no count goes
negative. In every state reachable through `buildLists`, `appendStep`, step completion
(`nextBuildQueue`) and `cancel`, and for each of these operations run next: every call of
`decrementActiveBuildSteps(p)` the operation makes finds an entry for `p` whose count is at
least 1; the operation does not stop at `Q_ASSERT(false ...)`; and every count stored in
`m_activeBuildSteps` is at least 0. -/
theorem decrement_assertion_unreachable (d : BuildManagerPrivate) (h : Reachable d)
    (op : Operation) :
    (∀ c ∈ decrementCalls op d, ∃ count, c.found = some count ∧ 1 ≤ count) ∧
      runOperation op d ≠ .error .assertionFailed ∧
      (∀ entry ∈ d.m_activeBuildSteps, 0 ≤ entry.2) := by
  have hinv := Reachable_inv d h
  refine ⟨?_, runOperation_no_assert op d hinv,
    stored_counts_nonneg d hinv (Reachable_keys d h)⟩
  intro c hc
  exact (hasPositiveEntry_iff c).mp (decrementCalls_positive op d hinv c hc)

/-- Witness of C11: `cancel` in the reachable state `sampleBuilding` makes three calls, for
projects 1, 1 and 2, which find the counts 2, 1 and 1. -/
theorem decrement_assertion_unreachable_witness :
    (Reachable sampleBuilding ∧
        decrementCalls .cancel sampleBuilding =
          [{ pro := 1, found := some 2 }, { pro := 1, found := some 1 },
            { pro := 2, found := some 1 }]) ∧
      (∀ c ∈ decrementCalls .cancel sampleBuilding, ∃ count, c.found = some count ∧ 1 ≤ count) ∧
      runOperation .cancel sampleBuilding ≠ .error .assertionFailed ∧
      (∀ entry ∈ sampleBuilding.m_activeBuildSteps, 0 ≤ entry.2) :=
  ⟨⟨sampleBuilding_reachable, by decide⟩,
    decrement_assertion_unreachable sampleBuilding sampleBuilding_reachable .cancel⟩

end ProjectExplorer
